import Mathlib

/-!
# go-argon2: the password-hash envelope

A shallow embedding of `argon2.go` and `errors.go`: the record codec
(`hashed.Hash`, `newFromHash`), the variant resolver with its stretching loop
(`getVariant`), the hasher (`newFromPassword`, `GenerateFromPassword`) and the
verifier (`CompareHashAndPassword`).

Conventions of the embedding:
* a Go `[]byte` or `string` is a `List Byte`, a byte is a `Fin 256`;
* a `uint8` / `uint32` value is a `Nat`; conversions (`uint8(tmp)`) and the
  increment of the `uint8` loop counter are written with an explicit `% 2^w`;
* the package-level variables are a `Registry` value passed explicitly;
* the collaborators that live outside the package (the two Argon2 primitives,
  the random source) and `base64Encode`, which is defined in neither of the two
  files, are the fields of an `Ext` value: every theorem holds for all of them;
* a call of an Argon2 primitive panics on the arguments outside `primReturns`
  (a time cost or a thread count below 1, a key length of 0) and returns the
  digest given by the field of `Ext` on the others;
* a Go function returning `(T, error)` returns an `Outcome T`, which also
  records a run-time panic (index out of range, or a panic of the primitive);
* functions that may call the primitive return a `Counted` value: the result
  together with the number of primitive invocations made.
-/

namespace Argon2

/-! ## Bytes and literals -/

abbrev Byte := Fin 256

/-- An ASCII string literal as a byte slice (used for ASCII literals only). -/
def ascii (s : String) : List Byte := s.toList.map (fun c => Fin.ofNat c.toNat)

/-- The delimiter of the record encoding, the byte of the dollar sign. -/
def dollar : Byte := 36

/-- The byte of the equals sign. -/
def equals : Byte := 61

/-- The byte of the comma. -/
def comma : Byte := 44

/-! ## Errors (`errors.go`, `strconv`, `io`) -/

/-- The two `strconv` error causes: `strconv.ErrSyntax` and `strconv.ErrRange`. -/
inductive NumErr
  | ErrSyntax
  | ErrRange
  deriving DecidableEq, Repr

/-- The error values of the package, with the errors of `strconv.ParseUint`
and `io.ReadFull` that it passes on unchanged. `ErrHashTooShort` and
`InvalidHashPrefixError` are declared in `errors.go`. -/
inductive Error
  | ErrMismatchedHashAndPassword
  | ErrHashTooShort
  | HashVersionNotSupportedError (hv : Nat)
  | HashVariantNotSupportedError (hv : List Byte)
  | InvalidHashPrefixError (ih : Byte)
  | NumError (num : List Byte) (cause : NumErr)
  | ReadError (code : Nat)
  deriving DecidableEq, Repr

/-- What a call produces: a run-time panic, a returned error, or a value. -/
inductive Outcome (α : Type)
  | panicked
  | err (e : Error)
  | ret (a : α)
  deriving DecidableEq, Repr

/-- A result together with the number of calls of the Argon2 primitive made
while computing it. -/
structure Counted (α : Type) where
  val : α
  calls : Nat
  deriving DecidableEq, Repr

/-! ## State and collaborators -/

/-- The package-level variables `Iterations`, `TimeCost`, `MemoryCost`,
`Threads`, `MaxTagLen`, `MaxSaltSize`. -/
structure Registry where
  Iterations : Nat
  TimeCost : Nat
  MemoryCost : Nat
  Threads : Nat
  MaxTagLen : Nat
  MaxSaltSize : Nat
  deriving DecidableEq, Repr

/-- The initial values of the package-level variables. -/
def Registry.initial : Registry :=
  { Iterations := 10, TimeCost := 3, MemoryCost := 32 * 1024, Threads := 2,
    MaxTagLen := 32, MaxSaltSize := 16 }

/-- The values a `Registry` can hold: `Iterations` and `Threads` are `uint8`,
the others `uint32`. -/
def Registry.valid (r : Registry) : Prop :=
  r.Iterations < 2 ^ 8 ∧ r.TimeCost < 2 ^ 32 ∧ r.MemoryCost < 2 ^ 32 ∧
    r.Threads < 2 ^ 8 ∧ r.MaxTagLen < 2 ^ 32 ∧ r.MaxSaltSize < 2 ^ 32

instance (r : Registry) : Decidable r.valid := by
  unfold Registry.valid; infer_instance

/-- The type of `argon2.Key` and `argon2.IDKey`:
`(password, salt, time, memory, threads, keyLen)` to the digest returned. The
value matters only on the arguments on which the call returns, see
`primReturns`. -/
abbrev Prim := List Byte → List Byte → Nat → Nat → Nat → Nat → List Byte

/-- The arguments on which a call of `argon2.Key` or `argon2.IDKey` returns.
The two functions of `golang.org/x/crypto/argon2` panic when the time cost is
below 1, when the number of threads is below 1, and when the key length is 0;
on every other argument they return a digest. -/
def primReturns (time threads keyLen : Nat) : Prop := 1 ≤ time ∧ 1 ≤ threads ∧ 1 ≤ keyLen

instance (time threads keyLen : Nat) : Decidable (primReturns time threads keyLen) := by
  unfold primReturns; infer_instance

/-- The collaborators: `argon2.IDKey`, `argon2.Key`, `base64Encode`, and the
outcome of `io.ReadFull(rand.Reader, buf)` for a buffer of the given length
(the bytes read, or the error). -/
structure Ext where
  IDKey : Prim
  Key : Prim
  base64Encode : List Byte → List Byte
  randRead : Nat → Except Error (List Byte)

/-- The constant `version`, that is `argon2.Version` (0x13). -/
def version : Nat := 19

/-- The struct `hashed`. -/
structure hashed where
  variant : List Byte
  version : Nat
  hash : List Byte
  salt : List Byte
  timeCost : Nat
  memoryCost : Nat
  parallelism : Nat
  deriving DecidableEq, Repr

/-! ## Library functions used by the package -/

/-- The builtin `copy(dst, src)`: the first `min (len dst) (len src)` bytes of
`dst` are overwritten; returns the new contents of `dst` and that count. -/
def copy (dst src : List Byte) : List Byte × Nat :=
  let k := min dst.length src.length
  (src.take k ++ dst.drop k, k)

/-- The statement `k := copy(a[n:], src)` on a buffer `a`: the new contents of
`a` and `k`. -/
def copyAt (a : List Byte) (n : Nat) (src : List Byte) : List Byte × Nat :=
  let r := copy (a.drop n) src
  (a.take n ++ r.1, r.2)

/-- The digits of `n` in base 10, most significant first (`fuel` bounds the
number of digits). -/
def fmtDigits : Nat → Nat → List Byte
  | 0, _ => []
  | fuel + 1, n =>
    if n < 10 then [Fin.ofNat (48 + n)]
    else fmtDigits fuel (n / 10) ++ [Fin.ofNat (48 + n % 10)]

/-- The verb `%d` of `fmt.Sprintf` on an unsigned integer. -/
def fmtUint (n : Nat) : List Byte := fmtDigits (n + 1) n

/-- The function `bytes.IndexByte`: position of the first `sep` in `s`. -/
def indexByte (sep : Byte) : List Byte → Option Nat
  | [] => none
  | c :: cs => if c = sep then some 0 else (indexByte sep cs).map (· + 1)

/-- The loop of `genSplit` in package `bytes`: up to `k` cuts at `sep`, then
the remainder as the last piece. -/
def genSplit (sep : Byte) : Nat → List Byte → List (List Byte)
  | 0, s => [s]
  | k + 1, s =>
    match indexByte sep s with
    | none => [s]
    | some m => s.take m :: genSplit sep k (s.drop (m + 1))

/-- The function `bytes.SplitN(s, []byte{sep}, n)` for `n ≥ 0`: at most `n`
pieces, the last one the unsplit remainder; `nil` for `n = 0`. -/
def SplitN (s : List Byte) (sep : Byte) (n : Nat) : List (List Byte) :=
  if n = 0 then [] else genSplit sep (n - 1) s

/-- The digit loop of `strconv.ParseUint` in base 10, on the rest of the input
with the value `n` read so far; `s0` is the whole input (kept for the error),
`maxVal` the largest value of the bit size. Returns the value and the error. -/
def parseLoop (s0 : List Byte) (maxVal : Nat) : List Byte → Nat → Nat × Option Error
  | [], n => (n, none)
  | c :: cs, n =>
    if 48 ≤ c.val ∧ c.val ≤ 57 then
      if n ≥ (2 ^ 64 - 1) / 10 + 1 then (maxVal, some (.NumError s0 .ErrRange))
      else
        let n1 := n * 10 + (c.val - 48)
        if n1 ≥ 2 ^ 64 ∨ n1 > maxVal then (maxVal, some (.NumError s0 .ErrRange))
        else parseLoop s0 maxVal cs n1
    else (0, some (.NumError s0 .ErrSyntax))

/-- The function `strconv.ParseUint(s, 10, bitSize)`: the value and the error
(`none` for `nil`). On a syntax error the value is 0, on a range error it is
the largest value of the bit size. -/
def ParseUint (s : List Byte) (bitSize : Nat) : Nat × Option Error :=
  if s = [] then (0, some (.NumError s .ErrSyntax))
  else parseLoop s (2 ^ bitSize - 1) s 0

/-- The function `subtle.ConstantTimeCompare`: 1 when the two slices have
equal contents, 0 otherwise. -/
def ConstantTimeCompare (x y : List Byte) : Nat := if x = y then 1 else 0

/-! ## `argon2.go` -/

/-- The token `v` of `Hash`: `fmt.Sprintf("v=%d", h.version)`. -/
def hashed.vToken (h : hashed) : List Byte := ascii "v=" ++ fmtUint h.version

/-- The token `ps` of `Hash`:
`fmt.Sprintf("m=%d,t=%d,p=%d", h.memoryCost, h.timeCost, h.parallelism)`. -/
def hashed.psToken (h : hashed) : List Byte :=
  ascii "m=" ++ fmtUint h.memoryCost ++ ascii ",t=" ++ fmtUint h.timeCost ++
    ascii ",p=" ++ fmtUint h.parallelism

/-- The method `(h *hashed) Hash()`: a buffer of the computed size is filled
by ten `copy` statements at the running offset `n` and cut at `n`. -/
def hashed.Hash (h : hashed) : List Byte :=
  let v := h.vToken
  let ps := h.psToken
  let a : List Byte := List.replicate
    (5 + h.variant.length + v.length + ps.length + h.salt.length + h.hash.length) 0
  let r := copyAt a 0 (ascii "$")
  let a := r.1
  let n := r.2
  let r := copyAt a n h.variant
  let a := r.1
  let n := n + r.2
  let r := copyAt a n (ascii "$")
  let a := r.1
  let n := n + r.2
  let r := copyAt a n v
  let a := r.1
  let n := n + r.2
  let r := copyAt a n (ascii "$")
  let a := r.1
  let n := n + r.2
  let r := copyAt a n ps
  let a := r.1
  let n := n + r.2
  let r := copyAt a n (ascii "$")
  let a := r.1
  let n := n + r.2
  let r := copyAt a n h.salt
  let a := r.1
  let n := n + r.2
  let r := copyAt a n (ascii "$")
  let a := r.1
  let n := n + r.2
  let r := copyAt a n h.hash
  let a := r.1
  let n := n + r.2
  a.take n

/-- The loop `for ; i < Iterations; i++ { copy(hash, alg(hash, b, c, d, e, f)) }`
of the function returned by `getVariant`, from counter value `i`, with the
calls of `alg` counted. `Iterations` and `i` are `uint8`: the variable is read
modulo 2^8 and the increment wraps modulo 2^8. -/
def stretchLoop (alg : Prim) (iterations : Nat) (b : List Byte) (c d e f : Nat)
    (i : Nat) (hash : List Byte) (calls : Nat) : Counted (List Byte) :=
  if i < iterations % 2 ^ 8 then
    stretchLoop alg iterations b c d e f ((i + 1) % 2 ^ 8)
      (copy hash (alg hash b c d e f)).1 (calls + 1)
  else ⟨hash, calls⟩
termination_by iterations % 2 ^ 8 - i
decreasing_by omega

/-- The function literal returned by `getVariant` for the primitive `alg`; it
reads the variable `Iterations` when it runs. Its first statement calls the
primitive with `(c, e, f)` as time cost, threads and key length: the call
panics outside `primReturns`, and the result is `none`, after one invocation.
The calls of the loop pass the same three values, so they return once the
first call has. -/
def stretched (x : Ext) (alg : Prim) (reg : Registry) (a b : List Byte)
    (c d e f : Nat) : Counted (Option (List Byte)) :=
  if primReturns c e f then
    let hash := alg a b c d e f
    let r := stretchLoop alg reg.Iterations b c d e f 1 hash 1
    ⟨some (x.base64Encode r.val), r.calls⟩
  else ⟨none, 1⟩

/-- The type of the function returned by `getVariant`, with the registry it
reads as its first argument; the value is `none` when the call panics. -/
abbrev Bound :=
  Registry → List Byte → List Byte → Nat → Nat → Nat → Nat → Counted (Option (List Byte))

/-- The function `getVariant`. -/
def getVariant (x : Ext) (name : List Byte) : Except Error Bound :=
  if name = ascii "argon2id" then .ok (stretched x x.IDKey)
  else if name = ascii "argon2i" then .ok (stretched x x.Key)
  else .error (.HashVariantNotSupportedError name)

/-- The function `newFromPassword`. The buffer `unencodedSalt` is filled by
the random read before the variant is resolved; a panic of the call
`argon2(...)` ends the function. -/
def newFromPassword (x : Ext) (reg : Registry) (variant password : List Byte) :
    Counted (Outcome hashed) :=
  let unencodedSalt : List Byte := List.replicate reg.MaxSaltSize 0
  match x.randRead reg.MaxSaltSize with
  | .error e => ⟨.err e, 0⟩
  | .ok read =>
    let unencodedSalt := (copy unencodedSalt read).1
    match getVariant x variant with
    | .error e => ⟨.err e, 0⟩
    | .ok argon2 =>
      let salt := x.base64Encode unencodedSalt
      let r := argon2 reg password salt reg.TimeCost reg.MemoryCost reg.Threads reg.MaxTagLen
      match r.val with
      | none => ⟨.panicked, r.calls⟩
      | some hash =>
        ⟨.ret { variant := variant, version := version, timeCost := reg.TimeCost,
                memoryCost := reg.MemoryCost, parallelism := reg.Threads, salt := salt,
                hash := hash }, r.calls⟩

/-- The function `GenerateFromPassword`. -/
def GenerateFromPassword (x : Ext) (reg : Registry) (variant password : List Byte) :
    Counted (Outcome (List Byte)) :=
  match newFromPassword x reg variant password with
  | ⟨.ret p, calls⟩ => ⟨.ret p.Hash, calls⟩
  | ⟨.err e, calls⟩ => ⟨.err e, calls⟩
  | ⟨.panicked, calls⟩ => ⟨.panicked, calls⟩

/-- The loop over `pairs` in `newFromHash`, on the pairs still to read, with
the current values of `mem`, `tim` and `par`. -/
def parsePairs : List (List Byte) → Nat × Nat × Nat → Outcome (Nat × Nat × Nat)
  | [], acc => .ret acc
  | p :: rest, (mem, tim, par) =>
    let pair := SplitN p equals 2
    match pair[1]? with
    | none => .panicked
    | some value =>
      match ParseUint value 32 with
      | (_, some e) => .err e
      | (tmp, none) =>
        match pair[0]? with
        | none => .panicked
        | some key =>
          if key = ascii "m" then parsePairs rest (tmp % 2 ^ 32, tim, par)
          else if key = ascii "t" then parsePairs rest (mem, tmp % 2 ^ 32, par)
          else if key = ascii "p" then parsePairs rest (mem, tim, tmp % 2 ^ 8)
          else parsePairs rest (mem, tim, par)

/-- The function `newFromHash`. Every index expression panics when out of
range; the error of the version's `ParseUint` is dropped, its value kept. -/
def newFromHash (hashedSecret : List Byte) : Outcome hashed :=
  let h := SplitN hashedSecret dollar 6
  match h[2]? with
  | none => .panicked
  | some h2 =>
    match (SplitN h2 equals 2)[1]? with
    | none => .panicked
    | some vs =>
      let v := (ParseUint vs 8).1
      match h[3]? with
      | none => .panicked
      | some h3 =>
        let pairs := SplitN h3 comma 3
        match parsePairs pairs (0, 0, 0) with
        | .panicked => .panicked
        | .err e => .err e
        | .ret (mem, tim, par) =>
          match h[4]?, h[5]?, h[1]? with
          | some h4, some h5, some h1 =>
            .ret { salt := h4, hash := h5, variant := h1, version := v % 2 ^ 8,
                   memoryCost := mem, timeCost := tim, parallelism := par }
          | _, _, _ => .panicked

/-- The function `CompareHashAndPassword`; `ret ()` is the `nil` error. A panic
of the call `argon2(...)` ends the function. -/
def CompareHashAndPassword (x : Ext) (reg : Registry) (hashedPassword password : List Byte) :
    Counted (Outcome Unit) :=
  match newFromHash hashedPassword with
  | .panicked => ⟨.panicked, 0⟩
  | .err e => ⟨.err e, 0⟩
  | .ret p =>
    match getVariant x p.variant with
    | .error e => ⟨.err e, 0⟩
    | .ok argon2 =>
      if p.version ≠ version then ⟨.err (.HashVersionNotSupportedError p.version), 0⟩
      else
        let r := argon2 reg password p.salt p.timeCost p.memoryCost p.parallelism reg.MaxTagLen
        match r.val with
        | none => ⟨.panicked, r.calls⟩
        | some hash =>
          if ConstantTimeCompare p.Hash
              (hashed.Hash { hash := hash, variant := p.variant, version := p.version,
                             timeCost := p.timeCost, memoryCost := p.memoryCost,
                             parallelism := p.parallelism, salt := p.salt }) ≠ 1 then
            ⟨.err .ErrMismatchedHashAndPassword, r.calls⟩
          else ⟨.ret (), r.calls⟩

/-- The ten `copy` statements of `Hash` as one left-to-right pass over the
pieces written, on the pair of the buffer and the offset `n`. -/
def writeAll (pieces : List (List Byte)) (st : List Byte × Nat) : List Byte × Nat :=
  pieces.foldl (fun st src => ((copyAt st.1 st.2 src).1, st.2 + (copyAt st.1 st.2 src).2)) st

/-- The canonical text of a record, as the specification writes it: the
delimiter before each of the five fields. -/
def canonical (h : hashed) : List Byte :=
  ascii "$" ++ h.variant ++ ascii "$v=" ++ fmtUint h.version ++ ascii "$m=" ++
    fmtUint h.memoryCost ++ ascii ",t=" ++ fmtUint h.timeCost ++ ascii ",p=" ++
    fmtUint h.parallelism ++ ascii "$" ++ h.salt ++ ascii "$" ++ h.hash

/-- The digest chain as the specification states it: `d_0` is the password and
`d_i = primitive(d_(i-1), salt, t, m, p, tag_len)`, so that `d_1` is the
round on the real password. -/
def specDigest (alg : Prim) (password salt : List Byte) (t m p tagLen : Nat) : Nat → List Byte
  | 0 => password
  | i + 1 => alg (specDigest alg password salt t m p tagLen i) salt t m p tagLen

/-- One pass of the loop body `copy(hash, alg(hash, b, c, d, e, f))` on `hash`. -/
def stretchStep (alg : Prim) (b : List Byte) (c d e f : Nat) (hash : List Byte) : List Byte :=
  (copy hash (alg hash b c d e f)).1

/-! ## Examples used in the statements below -/

/-- A toy primitive: the password reversed, cut or padded with zeros to
`keyLen` bytes. -/
def toyPrim : Prim := fun a _ _ _ _ f => (a.reverse ++ List.replicate f 0).take f

/-- A second toy primitive: the password cut or padded with ones to `keyLen`
bytes. -/
def toyKey : Prim := fun a _ _ _ _ f => (a ++ List.replicate f 1).take f

/-- A toy collaborator set: the two toy primitives, a codec that maps every
byte into the range of the capital letters, and a random source that reads
the byte 7 repeated. -/
def toyExt : Ext :=
  { IDKey := toyPrim
    Key := toyKey
    base64Encode := fun bs => bs.map (fun b => Fin.ofNat (65 + b.val % 16))
    randRead := fun n => .ok (List.replicate n 7) }

/-- A small registry: two rounds, four digest bytes, three salt bytes. -/
def toyReg : Registry :=
  { Iterations := 2, TimeCost := 1, MemoryCost := 8, Threads := 1, MaxTagLen := 4,
    MaxSaltSize := 3 }

/-- The result of a function applied to the value returned, if any. -/
def Outcome.map {α β : Type} (g : α → β) : Outcome α → Outcome β
  | .panicked => .panicked
  | .err e => .err e
  | .ret a => .ret (g a)

/-- A text that verifies against the password "pw" under `toyExt` and
`toyReg`. -/
def toyText : List Byte := ascii "$argon2id$v=19$m=8,t=1,p=1$HHH$AAAH"

/-- The record that `toyText` encodes. -/
def toyRecord : hashed :=
  { variant := ascii "argon2id", version := 19, hash := ascii "AAAH", salt := ascii "HHH",
    timeCost := 1, memoryCost := 8, parallelism := 1 }

/-- The text `toyText` with the version 18 in place of 19. -/
def oldVersionText : List Byte := ascii "$argon2id$v=18$m=8,t=1,p=1$HHH$AAAH"

/-- The record that `oldVersionText` encodes. -/
def oldVersionRecord : hashed :=
  { variant := ascii "argon2id", version := 18, hash := ascii "AAAH", salt := ascii "HHH",
    timeCost := 1, memoryCost := 8, parallelism := 1 }

/-- A text with six delimiter bytes: the canonical text of `sampleRecord`. -/
def sampleText : List Byte := ascii "$argon2id$v=19$m=65536,t=3,p=2$c2FsdA$di$gest"

/-- A record whose digest field holds a delimiter byte. -/
def sampleRecord : hashed :=
  { variant := ascii "argon2id", version := 19, hash := ascii "di$gest", salt := ascii "c2FsdA",
    timeCost := 3, memoryCost := 65536, parallelism := 2 }

/-- The record of the test vector of `argon2_test.go`. -/
def testVector : List Byte :=
  ascii "$argon2id$v=19$m=65536,t=1,p=6$KTAymECXXnekfa8FcES/Su$KPcCEYfGqeQbFwXKB1RsMQsrqgU1VJN65em0MREh0IS"

/-! ## Texts and values used to state the decoding claims -/

/-- The text of six segments, the delimiter between them. -/
def segments (s0 s1 s2 s3 s4 rest : List Byte) : List Byte :=
  s0 ++ dollar :: (s1 ++ dollar :: (s2 ++ dollar :: (s3 ++ dollar :: (s4 ++ dollar :: rest))))

/-- The value of a text of decimal digits, read from the left. -/
def decVal (s : List Byte) : Nat := s.foldl (fun n c => n * 10 + (c.val - 48)) 0

/-- A base-10 unsigned integer that fits `bits` bits: a non-empty text of
decimal digits whose value is below `2 ^ bits`. -/
def isUintText (bits : Nat) (s : List Byte) : Prop :=
  s ≠ [] ∧ (∀ c ∈ s, 48 ≤ c.val ∧ c.val ≤ 57) ∧ decVal s < 2 ^ bits

instance (bits : Nat) (s : List Byte) : Decidable (isUintText bits s) := by
  unfold isUintText; infer_instance

/-- The text `key=value` of a pair of a key and a value. -/
def pairText (p : List Byte × List Byte) : List Byte := p.1 ++ equals :: p.2

/-- The params token made of the given pairs, a comma between them. -/
def paramsText : List (List Byte × List Byte) → List Byte
  | [] => []
  | [p] => pairText p
  | p :: q :: rest => pairText p ++ comma :: paramsText (q :: rest)

/-- A pair that the text `key=value,...` determines: the key holds neither an
equals sign nor a comma and the value holds no comma. -/
def pairOk (p : List Byte × List Byte) : Prop :=
  equals ∉ p.1 ∧ comma ∉ p.1 ∧ comma ∉ p.2

instance (p : List Byte × List Byte) : Decidable (pairOk p) := by
  unfold pairOk; infer_instance

/-- The value that the pairs give to `key`, read from the left: each pair with
that key replaces the value, which is `cur` when no pair has the key. -/
def lastValue (key : List Byte) : Nat → List (List Byte × List Byte) → Nat
  | cur, [] => cur
  | cur, p :: ps => lastValue key (if p.1 = key then decVal p.2 else cur) ps

/-- The pieces that `bytes.SplitN(.., ",", 3)` cuts from the params token of
the given pairs: the pairs themselves when there are at most three, else the
first two and a third piece whose value is the rest of the token. -/
def piecesOf : List (List Byte × List Byte) → List (List Byte × List Byte)
  | p :: q :: r :: s :: rest => [p, q, (r.1, r.2 ++ comma :: paramsText (s :: rest))]
  | pairs => pairs

/-- The five leading segments of a text of six segments hold no delimiter. -/
def segmentsOk (s0 s1 s2 s3 s4 : List Byte) : Prop :=
  dollar ∉ s0 ∧ dollar ∉ s1 ∧ dollar ∉ s2 ∧ dollar ∉ s3 ∧ dollar ∉ s4

instance (s0 s1 s2 s3 s4 : List Byte) : Decidable (segmentsOk s0 s1 s2 s3 s4) := by
  unfold segmentsOk; infer_instance

/-- The text `toyText` with the key `x` in its version token. -/
def wrongKeyText : List Byte := ascii "$argon2id$x=19$m=8,t=1,p=1$HHH$AAAH"

/-- A text whose params token is the single pair `m=65536`. -/
def onePairText : List Byte := ascii "$argon2id$v=19$m=65536$c2FsdA$digest"

/-- The record that `onePairText` decodes to. -/
def onePairRecord : hashed :=
  { variant := ascii "argon2id", version := 19, hash := ascii "digest", salt := ascii "c2FsdA",
    timeCost := 0, memoryCost := 65536, parallelism := 0 }

/-- Every index expression of `newFromHash` is in range on the text: it holds
at least five delimiters, its version token holds an equals sign and so does
every piece that `SplitN` cuts from its params token. -/
def indexSafe (input : List Byte) : Prop :=
  5 ≤ input.count dollar ∧
    (∀ h2 ∈ (SplitN input dollar 6)[2]?, equals ∈ h2) ∧
    (∀ h3 ∈ (SplitN input dollar 6)[3]?, ∀ piece ∈ SplitN h3 comma 3, equals ∈ piece)

instance (input : List Byte) : Decidable (indexSafe input) := by
  unfold indexSafe; infer_instance

/-- The value of every piece `key=value` among the given pieces parses. -/
def valuesParse (pieces : List (List Byte)) : Prop :=
  ∀ piece ∈ pieces, ∀ v ∈ (SplitN piece equals 2)[1]?, (ParseUint v 32).2 = none

instance (pieces : List (List Byte)) : Decidable (valuesParse pieces) := by
  unfold valuesParse; infer_instance

/-- The registry `toyReg` with three rounds. -/
def toyReg3 : Registry := { toyReg with Iterations := 3 }

/-- The registry `toyReg` with five digest bytes. -/
def toyRegLong : Registry := { toyReg with MaxTagLen := 5 }

/-- The registry `toyReg` with the round count 0. -/
def toyReg0 : Registry := { toyReg with Iterations := 0 }

/-- The registry `toyReg` with other costs and another salt length. -/
def toyRegCosts : Registry :=
  { toyReg with TimeCost := 99, MemoryCost := 7, Threads := 5, MaxSaltSize := 1 }

/-- The default registry with the time cost 0. -/
def zeroTimeReg : Registry := { Registry.initial with TimeCost := 0 }

/-- The default registry with the thread count 0. -/
def zeroThreadsReg : Registry := { Registry.initial with Threads := 0 }

/-- The default registry with the digest length 0. -/
def zeroTagReg : Registry := { Registry.initial with MaxTagLen := 0 }

/-- The text `toyText` with the time cost 0 in place of 1. -/
def zeroTimeText : List Byte := ascii "$argon2id$v=19$m=8,t=0,p=1$HHH$AAAH"

/-- The record that `zeroTimeText` encodes. -/
def zeroTimeRecord : hashed :=
  { variant := ascii "argon2id", version := 19, hash := ascii "AAAH", salt := ascii "HHH",
    timeCost := 0, memoryCost := 8, parallelism := 1 }

/-! ## The builtin `copy` and the buffer of `Hash` -/

theorem copyAt_fill (done src : List Byte) (k : Nat) (h : src.length ≤ k) :
    copyAt (done ++ List.replicate k 0) done.length src =
      (done ++ src ++ List.replicate (k - src.length) 0, src.length) := by
  simp [copyAt, copy, Nat.min_eq_right h, List.take_of_length_le]

theorem writeAll_fill (pieces : List (List Byte)) :
    ∀ (done : List Byte) (k : Nat), (pieces.map List.length).sum ≤ k →
      writeAll pieces (done ++ List.replicate k 0, done.length) =
        (done ++ pieces.flatten ++ List.replicate (k - (pieces.map List.length).sum) 0,
          done.length + (pieces.map List.length).sum) := by
  induction pieces with
  | nil => intro done k _; simp [writeAll]
  | cons p ps ih =>
    intro done k h
    simp only [List.map_cons, List.sum_cons] at h
    have hp : p.length ≤ k := by omega
    have := ih (done ++ p) (k - p.length) (by omega)
    simp only [writeAll, List.foldl_cons] at this ⊢
    rw [copyAt_fill done p k hp]
    simp only [List.length_append] at this
    rw [this]
    simp only [List.flatten_cons, List.map_cons, List.sum_cons, List.append_assoc,
      Prod.mk.injEq, Nat.sub_sub, Nat.add_assoc, and_self]

theorem Hash_writeAll (h : hashed) :
    h.Hash =
      ((writeAll [ascii "$", h.variant, ascii "$", h.vToken, ascii "$", h.psToken, ascii "$",
          h.salt, ascii "$", h.hash]
        (List.replicate (5 + h.variant.length + h.vToken.length + h.psToken.length +
          h.salt.length + h.hash.length) 0, 0)).1).take
        (writeAll [ascii "$", h.variant, ascii "$", h.vToken, ascii "$", h.psToken, ascii "$",
          h.salt, ascii "$", h.hash]
        (List.replicate (5 + h.variant.length + h.vToken.length + h.psToken.length +
          h.salt.length + h.hash.length) 0, 0)).2 := by
  simp only [hashed.Hash, writeAll, List.foldl_cons, List.foldl_nil, Nat.zero_add]

theorem ascii_dollar : ascii "$" = [dollar] := by decide

theorem ascii_vTok : ascii "v=" = [118, equals] := by decide

theorem ascii_dollar_v : ascii "$v=" = [dollar, 118, equals] := by decide

theorem ascii_mTok : ascii "m=" = [109, equals] := by decide

theorem ascii_dollar_m : ascii "$m=" = [dollar, 109, equals] := by decide

theorem ascii_tTok : ascii ",t=" = [comma, 116, equals] := by decide

theorem ascii_pTok : ascii ",p=" = [comma, 112, equals] := by decide

theorem ascii_key_m : ascii "m" = [109] := by decide

theorem ascii_key_t : ascii "t" = [116] := by decide

theorem ascii_key_p : ascii "p" = [112] := by decide

/-- The buffer of `Hash` is exactly filled: the method returns the canonical
text. -/
theorem Hash_eq_canonical (h : hashed) : h.Hash = canonical h := by
  have hsum : (List.map List.length [ascii "$", h.variant, ascii "$", h.vToken, ascii "$",
      h.psToken, ascii "$", h.salt, ascii "$", h.hash]).sum =
      5 + h.variant.length + h.vToken.length + h.psToken.length + h.salt.length +
        h.hash.length := by
    simp [ascii_dollar]; omega
  have key := writeAll_fill [ascii "$", h.variant, ascii "$", h.vToken, ascii "$", h.psToken,
    ascii "$", h.salt, ascii "$", h.hash] []
    (5 + h.variant.length + h.vToken.length + h.psToken.length + h.salt.length + h.hash.length)
    (le_of_eq hsum)
  rw [hsum] at key
  simp only [List.nil_append, List.length_nil, Nat.sub_self, List.replicate_zero,
    List.append_nil, Nat.zero_add] at key
  rw [Hash_writeAll, key]
  rw [List.take_of_length_le (by rw [List.length_flatten, hsum])]
  simp [canonical, hashed.vToken, hashed.psToken, ascii_dollar, ascii_dollar_v, ascii_vTok,
    ascii_mTok, ascii_dollar_m, ascii_tTok, ascii_pTok]

/-! ## Splitting -/

theorem indexByte_none (sep : Byte) (a : List Byte) (h : sep ∉ a) : indexByte sep a = none := by
  induction a with
  | nil => rfl
  | cons c cs ih =>
    simp only [List.mem_cons, not_or] at h
    simp [indexByte, Ne.symm h.1, ih h.2]

theorem indexByte_append (sep : Byte) (a t : List Byte) (h : sep ∉ a) :
    indexByte sep (a ++ sep :: t) = some a.length := by
  induction a with
  | nil => simp [indexByte]
  | cons c cs ih =>
    simp only [List.mem_cons, not_or] at h
    simp [indexByte, Ne.symm h.1, ih h.2]

theorem genSplit_cut (sep : Byte) (k : Nat) (a t : List Byte) (h : sep ∉ a) :
    genSplit sep (k + 1) (a ++ sep :: t) = a :: genSplit sep k t := by
  simp [genSplit, indexByte_append sep a t h]

theorem genSplit_last (sep : Byte) (k : Nat) (a : List Byte) (h : sep ∉ a) :
    genSplit sep k a = [a] := by
  cases k with
  | zero => rfl
  | succ k => simp [genSplit, indexByte_none sep a h]

/-! ## Decimal text: `%d` and `ParseUint` -/

theorem digit_val (d : Nat) (h : d < 10) : (Fin.ofNat (48 + d) : Byte).val = 48 + d := by
  simp only [Fin.ofNat, Nat.reduceAdd]
  omega

theorem fmtDigits_digits (fuel : Nat) :
    ∀ n, ∀ b ∈ fmtDigits fuel n, 48 ≤ b.val ∧ b.val ≤ 57 := by
  induction fuel with
  | zero => intro n b hb; simp [fmtDigits] at hb
  | succ fuel ih =>
    intro n b hb
    unfold fmtDigits at hb
    split at hb
    · rename_i hlt
      simp only [List.mem_singleton] at hb
      rw [hb, digit_val n hlt]; omega
    · simp only [List.mem_append, List.mem_singleton] at hb
      rcases hb with hb | hb
      · exact ih _ b hb
      · rw [hb, digit_val _ (Nat.mod_lt _ (by decide))]
        have := Nat.mod_lt n (show 0 < 10 by decide)
        omega

theorem fmtUint_digits (n : Nat) : ∀ b ∈ fmtUint n, 48 ≤ b.val ∧ b.val ≤ 57 :=
  fmtDigits_digits (n + 1) n

theorem fmtUint_ne_nil (n : Nat) : fmtUint n ≠ [] := by
  unfold fmtUint fmtDigits
  split <;> simp

theorem dollar_not_mem_fmtUint (n : Nat) : dollar ∉ fmtUint n := by
  intro h
  have := fmtUint_digits n dollar h
  revert this
  decide

theorem equals_not_mem_fmtUint (n : Nat) : equals ∉ fmtUint n := by
  intro h
  have := fmtUint_digits n equals h
  revert this
  decide

theorem comma_not_mem_fmtUint (n : Nat) : comma ∉ fmtUint n := by
  intro h
  have := fmtUint_digits n comma h
  revert this
  decide

theorem parseLoop_append (s0 : List Byte) (maxVal : Nat) (xs ys : List Byte) :
    ∀ acc m, parseLoop s0 maxVal xs acc = (m, none) →
      parseLoop s0 maxVal (xs ++ ys) acc = parseLoop s0 maxVal ys m := by
  induction xs with
  | nil => intro acc m h; simp [parseLoop] at h; simp [h]
  | cons c cs ih =>
    intro acc m h
    simp only [parseLoop, List.cons_append] at h ⊢
    split at h
    · split at h
      · simp at h
      · split at h
        · simp at h
        · rename_i h1 h2 h3
          rw [if_pos h1, if_neg h2, if_neg h3]
          exact ih _ _ h
    · simp at h

theorem parseLoop_fmtDigits (s0 : List Byte) (maxVal : Nat) (hmax : maxVal < 2 ^ 64)
    (fuel : Nat) :
    ∀ n, n < fuel → n ≤ maxVal → parseLoop s0 maxVal (fmtDigits fuel n) 0 = (n, none) := by
  induction fuel with
  | zero => intro n h; omega
  | succ fuel ih =>
    intro n hn hle
    unfold fmtDigits
    split
    · rename_i hlt
      have hv := digit_val n hlt
      simp only [parseLoop, hv]
      rw [if_pos (by omega), if_neg (by omega), if_neg (by omega)]
      simp
    · rename_i hge
      have hrec := ih (n / 10) (by omega) (by omega)
      rw [parseLoop_append s0 maxVal _ _ 0 (n / 10) hrec]
      have hv := digit_val (n % 10) (Nat.mod_lt _ (by decide))
      simp only [parseLoop, hv]
      rw [if_pos (by omega), if_neg (by omega), if_neg (by omega)]
      simp only [Prod.mk.injEq, and_true]
      omega

theorem ParseUint_fmtUint (n bitSize : Nat) (hb : bitSize ≤ 64) (hn : n < 2 ^ bitSize) :
    ParseUint (fmtUint n) bitSize = (n, none) := by
  have hpow : 2 ^ bitSize ≤ 2 ^ 64 := Nat.pow_le_pow_right (by decide) hb
  have hpos : 0 < 2 ^ bitSize := Nat.pow_pos (by decide)
  unfold ParseUint
  rw [if_neg (fmtUint_ne_nil n)]
  exact parseLoop_fmtDigits _ _ (by omega) (n + 1) n (by omega) (by omega)

/-! ## Decoding a canonical text -/

theorem canonical_shape (r : hashed) :
    canonical r = dollar :: (r.variant ++ dollar :: (r.vToken ++ dollar :: (r.psToken ++
      dollar :: (r.salt ++ dollar :: r.hash)))) := by
  simp [canonical, hashed.vToken, hashed.psToken, ascii_dollar, ascii_dollar_v, ascii_vTok,
    ascii_mTok, ascii_dollar_m, ascii_tTok, ascii_pTok]

theorem dollar_not_mem_vToken (r : hashed) : dollar ∉ r.vToken := by
  simp only [hashed.vToken, ascii_vTok, List.mem_append, not_or]
  exact ⟨by decide, dollar_not_mem_fmtUint _⟩

theorem dollar_not_mem_psToken (r : hashed) : dollar ∉ r.psToken := by
  simp only [hashed.psToken, ascii_mTok, ascii_tTok, ascii_pTok, List.mem_append, not_or]
  exact ⟨⟨⟨⟨⟨by decide, dollar_not_mem_fmtUint _⟩, by decide⟩, dollar_not_mem_fmtUint _⟩,
    by decide⟩, dollar_not_mem_fmtUint _⟩

/-- The six segments of a canonical text behind any leading segment free of
the delimiter. -/
theorem SplitN_canonical (lead : List Byte) (r : hashed) (hl : dollar ∉ lead)
    (hv : dollar ∉ r.variant) (hs : dollar ∉ r.salt) :
    SplitN (lead ++ canonical r) dollar 6 =
      [lead, r.variant, r.vToken, r.psToken, r.salt, r.hash] := by
  rw [canonical_shape]
  simp only [SplitN, Nat.reduceSub, if_neg (show (6 : Nat) ≠ 0 by decide)]
  rw [genSplit_cut _ _ _ _ hl, genSplit_cut _ _ _ _ hv,
    genSplit_cut _ _ _ _ (dollar_not_mem_vToken r),
    genSplit_cut _ _ _ _ (dollar_not_mem_psToken r), genSplit_cut _ _ _ _ hs]
  rfl

theorem SplitN_pair (k : Byte) (n : Nat) (hk : k ≠ equals) :
    SplitN (k :: equals :: fmtUint n) equals 2 = [[k], fmtUint n] := by
  have h : equals ∉ [k] := by simp [Ne.symm hk]
  have := genSplit_cut equals 0 [k] (fmtUint n) h
  simpa [SplitN, genSplit] using this

theorem SplitN_vToken (r : hashed) :
    SplitN r.vToken equals 2 = [[118], fmtUint r.version] := by
  simpa [hashed.vToken, ascii_vTok] using SplitN_pair 118 r.version (by decide)

theorem SplitN_psToken (r : hashed) :
    SplitN r.psToken comma 3 =
      [109 :: equals :: fmtUint r.memoryCost, 116 :: equals :: fmtUint r.timeCost,
        112 :: equals :: fmtUint r.parallelism] := by
  have h1 : comma ∉ (109 :: equals :: fmtUint r.memoryCost : List Byte) := by
    simp only [List.mem_cons, not_or]
    exact ⟨by decide, by decide, comma_not_mem_fmtUint _⟩
  have h2 : comma ∉ (116 :: equals :: fmtUint r.timeCost : List Byte) := by
    simp only [List.mem_cons, not_or]
    exact ⟨by decide, by decide, comma_not_mem_fmtUint _⟩
  have e : r.psToken = (109 :: equals :: fmtUint r.memoryCost) ++ comma ::
      ((116 :: equals :: fmtUint r.timeCost) ++ comma ::
        (112 :: equals :: fmtUint r.parallelism)) := by
    simp [hashed.psToken, ascii_mTok, ascii_tTok, ascii_pTok]
  rw [e]
  simp only [SplitN, Nat.reduceSub, if_neg (show (3 : Nat) ≠ 0 by decide)]
  rw [genSplit_cut _ _ _ _ h1, genSplit_cut _ _ _ _ h2]
  rfl

theorem parsePairs_step (k : Byte) (n : Nat) (rest : List (List Byte)) (mem tim par : Nat)
    (hk : k ≠ equals) (hn : n < 2 ^ 32) :
    parsePairs ((k :: equals :: fmtUint n) :: rest) (mem, tim, par) =
      if [k] = ascii "m" then parsePairs rest (n % 2 ^ 32, tim, par)
      else if [k] = ascii "t" then parsePairs rest (mem, n % 2 ^ 32, par)
      else if [k] = ascii "p" then parsePairs rest (mem, tim, n % 2 ^ 8)
      else parsePairs rest (mem, tim, par) := by
  rw [parsePairs]
  simp only [SplitN_pair k n hk, List.getElem?_cons_succ, List.getElem?_cons_zero,
    ParseUint_fmtUint n 32 (by decide) hn]

theorem parsePairs_psToken (r : hashed) (hm : r.memoryCost < 2 ^ 32) (ht : r.timeCost < 2 ^ 32)
    (hp : r.parallelism < 2 ^ 8) :
    parsePairs (SplitN r.psToken comma 3) (0, 0, 0) =
      .ret (r.memoryCost, r.timeCost, r.parallelism) := by
  have hp32 : r.parallelism < 2 ^ 32 := by
    have : (2 : Nat) ^ 8 ≤ 2 ^ 32 := by decide
    omega
  rw [SplitN_psToken, parsePairs_step _ _ _ _ _ _ (by decide) hm,
    if_pos (by decide), parsePairs_step _ _ _ _ _ _ (by decide) ht, if_neg (by decide),
    if_pos (by decide), parsePairs_step _ _ _ _ _ _ (by decide) hp32, if_neg (by decide),
    if_neg (by decide), if_pos (by decide), parsePairs, Nat.mod_eq_of_lt hm,
    Nat.mod_eq_of_lt ht, Nat.mod_eq_of_lt hp]

/-- Decoding a canonical text returns the record, whatever stands before the
first delimiter. -/
theorem newFromHash_canonical (lead : List Byte) (r : hashed) (hl : dollar ∉ lead)
    (hver : r.version < 2 ^ 8) (hm : r.memoryCost < 2 ^ 32) (ht : r.timeCost < 2 ^ 32)
    (hp : r.parallelism < 2 ^ 8) (hv : dollar ∉ r.variant) (hs : dollar ∉ r.salt) :
    newFromHash (lead ++ canonical r) = .ret r := by
  unfold newFromHash
  simp only [SplitN_canonical lead r hl hv hs, SplitN_vToken, List.getElem?_cons_succ,
    List.getElem?_cons_zero, parsePairs_psToken r hm ht hp,
    ParseUint_fmtUint _ 8 (by decide) hver, Nat.mod_eq_of_lt hver]

/-! ## The stretching loop -/

theorem copy_same_length (dst src : List Byte) (h : src.length = dst.length) :
    (copy dst src).1 = src := by
  simp [copy, h]

theorem stretchLoop_done (alg : Prim) (iterations : Nat) (b : List Byte) (c d e f i : Nat)
    (hash : List Byte) (calls : Nat) (h : iterations % 2 ^ 8 ≤ i) :
    stretchLoop alg iterations b c d e f i hash calls = ⟨hash, calls⟩ := by
  rw [stretchLoop, if_neg (by omega)]

/-- The loop from counter `i` makes the `k` passes that remain up to
`Iterations`, one call of the primitive each. -/
theorem stretchLoop_iterate (alg : Prim) (iterations : Nat) (b : List Byte) (c d e f : Nat) :
    ∀ (k i : Nat) (hash : List Byte) (calls : Nat), i + k = iterations % 2 ^ 8 →
      stretchLoop alg iterations b c d e f i hash calls =
        ⟨(stretchStep alg b c d e f)^[k] hash, calls + k⟩ := by
  intro k
  induction k with
  | zero =>
    intro i hash calls h
    rw [stretchLoop_done _ _ _ _ _ _ _ _ _ _ (by omega)]
    rfl
  | succ k ih =>
    intro i hash calls h
    have hlt : iterations % 2 ^ 8 < 2 ^ 8 := Nat.mod_lt _ (by decide)
    rw [stretchLoop, if_pos (by omega), Nat.mod_eq_of_lt (by omega),
      ih (i + 1) _ (calls + 1) (by omega)]
    simp only [stretchStep, Function.iterate_succ, Function.comp_apply, Counted.mk.injEq,
      true_and]
    omega

/-- The closure on arguments the primitive accepts. -/
theorem stretched_eq (x : Ext) (alg : Prim) (reg : Registry) (a b : List Byte) (c d e f : Nat)
    (hp : primReturns c e f) :
    stretched x alg reg a b c d e f =
      ⟨some (x.base64Encode ((stretchStep alg b c d e f)^[reg.Iterations % 2 ^ 8 - 1]
        (alg a b c d e f))), 1 + (reg.Iterations % 2 ^ 8 - 1)⟩ := by
  simp only [stretched, if_pos hp]
  by_cases h : reg.Iterations % 2 ^ 8 = 0
  · rw [stretchLoop_done alg reg.Iterations b c d e f 1 _ 1 (by omega), h]
    rfl
  · rw [stretchLoop_iterate alg reg.Iterations b c d e f (reg.Iterations % 2 ^ 8 - 1) 1 _ 1
      (by omega)]

/-- The closure on arguments the primitive rejects: the first call panics. -/
theorem stretched_panics (x : Ext) (alg : Prim) (reg : Registry) (a b : List Byte)
    (c d e f : Nat) (hp : ¬primReturns c e f) :
    stretched x alg reg a b c d e f = ⟨none, 1⟩ := by
  simp only [stretched, if_neg hp]

theorem specDigest_length (alg : Prim) (hlen : ∀ a b c d e f, (alg a b c d e f).length = f)
    (a b : List Byte) (c d e f i : Nat) : (specDigest alg a b c d e f (i + 1)).length = f := by
  simp [specDigest, hlen]

theorem iterate_specDigest (alg : Prim) (hlen : ∀ a b c d e f, (alg a b c d e f).length = f)
    (a b : List Byte) (c d e f : Nat) :
    ∀ k, (stretchStep alg b c d e f)^[k] (alg a b c d e f) =
      specDigest alg a b c d e f (k + 1) := by
  intro k
  induction k with
  | zero => rfl
  | succ k ih =>
    rw [Function.iterate_succ_apply', ih, stretchStep,
      copy_same_length _ _ (by rw [hlen, specDigest_length alg hlen])]
    rfl

theorem toyPrim_length (a b : List Byte) (c d e f : Nat) : (toyPrim a b c d e f).length = f := by
  simp [toyPrim]

theorem toyKey_length (a b : List Byte) (c d e f : Nat) : (toyKey a b c d e f).length = f := by
  simp [toyKey]

theorem getVariant_argon2id (x : Ext) :
    getVariant x (ascii "argon2id") = .ok (stretched x x.IDKey) := by
  simp [getVariant]

theorem getVariant_argon2i (x : Ext) :
    getVariant x (ascii "argon2i") = .ok (stretched x x.Key) := by
  rw [getVariant, if_neg (by decide), if_pos rfl]

/-! ## The verifier and the hasher -/

theorem ConstantTimeCompare_ne_one (a b : List Byte) : ConstantTimeCompare a b ≠ 1 ↔ a ≠ b := by
  unfold ConstantTimeCompare
  split <;> simp_all

/-- Two records that differ at most in the digest field have the same `Hash`
output exactly when their digest fields are equal. -/
theorem Hash_eq_iff_hash_eq (p : hashed) (digest : List Byte) :
    p.Hash = hashed.Hash
      { hash := digest, variant := p.variant, version := p.version, timeCost := p.timeCost,
        memoryCost := p.memoryCost, parallelism := p.parallelism, salt := p.salt } ↔
      p.hash = digest := by
  rw [Hash_eq_canonical, Hash_eq_canonical]
  simp [canonical]

/-- The verifier stops at the version gate before the primitive is called. -/
theorem Compare_decoded_version (x : Ext) (reg : Registry) (h pw : List Byte) (p : hashed)
    (bound : Bound) (hd : newFromHash h = .ret p) (hv : getVariant x p.variant = .ok bound)
    (hver : p.version ≠ version) :
    CompareHashAndPassword x reg h pw = ⟨.err (.HashVersionNotSupportedError p.version), 0⟩ := by
  unfold CompareHashAndPassword
  simp only [hd, hv, if_pos hver]

/-- The verifier once the text is decoded, the variant resolved, the version
accepted and the call `argon2(...)` has returned `digest`. -/
theorem Compare_decoded (x : Ext) (reg : Registry) (h pw : List Byte) (p : hashed)
    (bound : Bound) (digest : List Byte) (hd : newFromHash h = .ret p)
    (hv : getVariant x p.variant = .ok bound) (hver : p.version = version)
    (hb : (bound reg pw p.salt p.timeCost p.memoryCost p.parallelism reg.MaxTagLen).val =
      some digest) :
    CompareHashAndPassword x reg h pw =
      if p.hash = digest then
        ⟨.ret (), (bound reg pw p.salt p.timeCost p.memoryCost p.parallelism reg.MaxTagLen).calls⟩
      else ⟨.err .ErrMismatchedHashAndPassword,
        (bound reg pw p.salt p.timeCost p.memoryCost p.parallelism reg.MaxTagLen).calls⟩ := by
  unfold CompareHashAndPassword
  simp only [hd, hv, hb, if_neg (not_not.mpr hver), ConstantTimeCompare_ne_one, Ne,
    Hash_eq_iff_hash_eq]
  by_cases hh : p.hash = digest
  · simp only [hh, not_true_eq_false, if_false, if_true]
  · simp only [hh, not_false_eq_true, if_false, if_true]

/-- The verifier once the text is decoded, the variant resolved, the version
accepted and the call `argon2(...)` has panicked. -/
theorem Compare_decoded_panics (x : Ext) (reg : Registry) (h pw : List Byte) (p : hashed)
    (bound : Bound) (hd : newFromHash h = .ret p)
    (hv : getVariant x p.variant = .ok bound) (hver : p.version = version)
    (hb : (bound reg pw p.salt p.timeCost p.memoryCost p.parallelism reg.MaxTagLen).val =
      none) :
    CompareHashAndPassword x reg h pw =
      ⟨.panicked,
        (bound reg pw p.salt p.timeCost p.memoryCost p.parallelism reg.MaxTagLen).calls⟩ := by
  unfold CompareHashAndPassword
  simp only [hd, hv, hb, if_neg (not_not.mpr hver)]

/-- The hasher once the random read has succeeded, the variant is resolved
and the call `argon2(...)` has returned `digest`. -/
theorem newFromPassword_read (x : Ext) (reg : Registry) (variant pw s : List Byte)
    (bound : Bound) (digest : List Byte) (hr : x.randRead reg.MaxSaltSize = .ok s)
    (hv : getVariant x variant = .ok bound)
    (hb : (bound reg pw (x.base64Encode (copy (List.replicate reg.MaxSaltSize 0) s).1)
      reg.TimeCost reg.MemoryCost reg.Threads reg.MaxTagLen).val = some digest) :
    newFromPassword x reg variant pw =
      ⟨.ret { variant := variant, version := version, timeCost := reg.TimeCost,
              memoryCost := reg.MemoryCost, parallelism := reg.Threads,
              salt := x.base64Encode (copy (List.replicate reg.MaxSaltSize 0) s).1,
              hash := digest },
        (bound reg pw (x.base64Encode (copy (List.replicate reg.MaxSaltSize 0) s).1)
          reg.TimeCost reg.MemoryCost reg.Threads reg.MaxTagLen).calls⟩ := by
  unfold newFromPassword
  simp only [hr, hv, hb]

/-- The hasher once the random read has succeeded, the variant is resolved
and the call `argon2(...)` has panicked. -/
theorem newFromPassword_panics (x : Ext) (reg : Registry) (variant pw s : List Byte)
    (bound : Bound) (hr : x.randRead reg.MaxSaltSize = .ok s)
    (hv : getVariant x variant = .ok bound)
    (hb : (bound reg pw (x.base64Encode (copy (List.replicate reg.MaxSaltSize 0) s).1)
      reg.TimeCost reg.MemoryCost reg.Threads reg.MaxTagLen).val = none) :
    newFromPassword x reg variant pw =
      ⟨.panicked,
        (bound reg pw (x.base64Encode (copy (List.replicate reg.MaxSaltSize 0) s).1)
          reg.TimeCost reg.MemoryCost reg.Threads reg.MaxTagLen).calls⟩ := by
  unfold newFromPassword
  simp only [hr, hv, hb]

/-- The function that `getVariant` returns is the closure on one of the two
primitives. -/
theorem getVariant_ok_form (x : Ext) (name : List Byte) (bound : Bound)
    (h : getVariant x name = .ok bound) :
    bound = stretched x x.IDKey ∨ bound = stretched x x.Key := by
  unfold getVariant at h
  split at h
  · left; exact (Except.ok.inj h).symm
  · split at h
    · right; exact (Except.ok.inj h).symm
    · cases h

/-- A resolved operation returns a digest on arguments the primitive accepts. -/
theorem bound_returns (x : Ext) (name : List Byte) (bound : Bound)
    (h : getVariant x name = .ok bound) (reg : Registry) (a b : List Byte) (c d e f : Nat)
    (hp : primReturns c e f) : ∃ digest, (bound reg a b c d e f).val = some digest := by
  rcases getVariant_ok_form x name bound h with hb | hb <;>
    exact ⟨_, by rw [hb, stretched_eq _ _ _ _ _ _ _ _ _ hp]⟩

/-- A resolved operation panics at its first call of the primitive on
arguments the primitive rejects. -/
theorem bound_panics (x : Ext) (name : List Byte) (bound : Bound)
    (h : getVariant x name = .ok bound) (reg : Registry) (a b : List Byte) (c d e f : Nat)
    (hp : ¬primReturns c e f) : bound reg a b c d e f = ⟨none, 1⟩ := by
  rcases getVariant_ok_form x name bound h with hb | hb <;>
    rw [hb, stretched_panics _ _ _ _ _ _ _ _ _ hp]

theorem getVariant_unsupported (x : Ext) (name : List Byte) (h1 : name ≠ ascii "argon2i")
    (h2 : name ≠ ascii "argon2id") :
    getVariant x name = .error (.HashVariantNotSupportedError name) := by
  rw [getVariant, if_neg h2, if_neg h1]

theorem getVariant_supported (x : Ext) (name : List Byte)
    (h : name = ascii "argon2i" ∨ name = ascii "argon2id") :
    ∃ bound, getVariant x name = .ok bound := by
  rcases h with h | h
  · exact ⟨_, h ▸ getVariant_argon2i x⟩
  · exact ⟨_, h ▸ getVariant_argon2id x⟩

/-- The leading segment of the input plays no part in decoding. -/
theorem newFromHash_lead (lead t : List Byte) (hl : dollar ∉ lead) :
    newFromHash (lead ++ dollar :: t) = newFromHash (dollar :: t) := by
  have e1 : SplitN (lead ++ dollar :: t) dollar 6 = lead :: genSplit dollar 4 t := by
    simp only [SplitN, Nat.reduceSub, if_neg (show (6 : Nat) ≠ 0 by decide)]
    exact genSplit_cut dollar 4 lead t hl
  have e2 : SplitN (dollar :: t) dollar 6 = [] :: genSplit dollar 4 t := by
    simp only [SplitN, Nat.reduceSub, if_neg (show (6 : Nat) ≠ 0 by decide)]
    exact genSplit_cut dollar 4 [] t (by simp)
  unfold newFromHash
  simp only [e1, e2, List.getElem?_cons_succ]

theorem Compare_lead (x : Ext) (reg : Registry) (lead t pw : List Byte) (hl : dollar ∉ lead) :
    CompareHashAndPassword x reg (lead ++ dollar :: t) pw =
      CompareHashAndPassword x reg (dollar :: t) pw := by
  unfold CompareHashAndPassword
  rw [newFromHash_lead lead t hl]

theorem toyExt_no_dollar (bs : List Byte) : dollar ∉ toyExt.base64Encode bs := by
  simp only [toyExt, List.mem_map, not_exists, not_and]
  intro b _ hb
  have h := congrArg Fin.val hb
  have h36 : (dollar : Byte).val = 36 := rfl
  rw [h36] at h
  simp only [Fin.ofNat] at h
  omega

theorem toy_digest :
    (stretched toyExt toyExt.IDKey toyReg (ascii "pw") (ascii "HHH") 1 8 1 4).val =
      some (ascii "AAAH") := by
  rw [stretched_eq _ _ _ _ _ _ _ _ _ (by decide)]
  decide

/-- A text with two delimiter bytes: the index `h[3]` is out of range. -/
theorem newFromHash_short_text : newFromHash (ascii "$argon2id$v=19") = .panicked := by
  decide

theorem toy_compare :
    CompareHashAndPassword toyExt toyReg toyText (ascii "pw") = ⟨.ret (), 2⟩ := by
  have hc : (stretched toyExt toyExt.IDKey toyReg (ascii "pw") (ascii "HHH") 1 8 1 4).calls =
      2 := by
    rw [stretched_eq _ _ _ _ _ _ _ _ _ (by decide)]
    decide
  have hd : (stretched toyExt toyExt.IDKey toyReg (ascii "pw") toyRecord.salt
      toyRecord.timeCost toyRecord.memoryCost toyRecord.parallelism toyReg.MaxTagLen).val =
      some toyRecord.hash := toy_digest
  rw [Compare_decoded toyExt toyReg toyText (ascii "pw") toyRecord
    (stretched toyExt toyExt.IDKey) toyRecord.hash (by decide) (getVariant_argon2id toyExt)
    (by decide) hd, if_pos rfl]
  exact congrArg _ hc

/-! ## `ParseUint` on any text -/

theorem foldl_digits_ge (cs : List Byte) :
    ∀ acc : Nat, acc ≤ cs.foldl (fun n c => n * 10 + (c.val - 48)) acc := by
  induction cs with
  | nil => intro acc; exact Nat.le_refl _
  | cons c cs ih =>
    intro acc
    have := ih (acc * 10 + (c.val - 48))
    simp only [List.foldl_cons]
    omega

/-- The digit loop on a text of digits: the value when it is at most
`maxVal`, the range error otherwise. -/
theorem parseLoop_digits (s0 : List Byte) (maxVal : Nat) (hmax : maxVal < 2 ^ 64)
    (cs : List Byte) :
    ∀ acc, acc ≤ maxVal → (∀ c ∈ cs, 48 ≤ c.val ∧ c.val ≤ 57) →
      parseLoop s0 maxVal cs acc =
        if cs.foldl (fun n c => n * 10 + (c.val - 48)) acc ≤ maxVal then
          (cs.foldl (fun n c => n * 10 + (c.val - 48)) acc, none)
        else (maxVal, some (.NumError s0 .ErrRange)) := by
  induction cs with
  | nil => intro acc hacc _; simp [parseLoop, hacc]
  | cons c cs ih =>
    intro acc hacc hd
    have hc := hd c (List.mem_cons_self _ _)
    have hrest : ∀ c ∈ cs, 48 ≤ c.val ∧ c.val ≤ 57 :=
      fun c' h' => hd c' (List.mem_cons_of_mem _ h')
    have hge := foldl_digits_ge cs (acc * 10 + (c.val - 48))
    simp only [parseLoop, List.foldl_cons]
    rw [if_pos hc]
    by_cases h1 : acc ≥ (2 ^ 64 - 1) / 10 + 1
    · rw [if_pos h1, if_neg (by omega)]
    · rw [if_neg h1]
      by_cases h2 : acc * 10 + (c.val - 48) ≥ 2 ^ 64 ∨ acc * 10 + (c.val - 48) > maxVal
      · rw [if_pos h2, if_neg (by omega)]
      · rw [if_neg h2]
        exact ih _ (by omega) hrest

/-- The digit loop returns an error on a text that holds a byte other than a
digit. -/
theorem parseLoop_not_digit (s0 : List Byte) (maxVal : Nat) (cs : List Byte) :
    ∀ acc, (∃ c ∈ cs, ¬(48 ≤ c.val ∧ c.val ≤ 57)) →
      (parseLoop s0 maxVal cs acc).2 ≠ none := by
  induction cs with
  | nil => intro acc h; simp at h
  | cons c cs ih =>
    intro acc h
    simp only [parseLoop]
    by_cases hc : 48 ≤ c.val ∧ c.val ≤ 57
    · rw [if_pos hc]
      split
      · simp
      · split
        · simp
        · apply ih
          obtain ⟨c', hmem, hnd⟩ := h
          rcases List.mem_cons.mp hmem with rfl | hmem
          · exact absurd hc hnd
          · exact ⟨c', hmem, hnd⟩
    · rw [if_neg hc]
      simp

/-- `ParseUint` returns no error exactly on the base-10 unsigned integers that
fit the bit size. -/
theorem ParseUint_ok_iff (s : List Byte) (bits : Nat) (hb : bits ≤ 64) :
    (ParseUint s bits).2 = none ↔ isUintText bits s := by
  have hpow : 2 ^ bits ≤ 2 ^ 64 := Nat.pow_le_pow_right (by decide) hb
  have hpos : 0 < 2 ^ bits := Nat.pow_pos (by decide)
  unfold ParseUint isUintText
  by_cases hnil : s = []
  · simp [hnil]
  · rw [if_neg hnil]
    by_cases hd : ∀ c ∈ s, 48 ≤ c.val ∧ c.val ≤ 57
    · rw [parseLoop_digits s (2 ^ bits - 1) (by omega) s 0 (Nat.zero_le _) hd]
      unfold decVal
      by_cases hv : s.foldl (fun n c => n * 10 + (c.val - 48)) 0 ≤ 2 ^ bits - 1
      · rw [if_pos hv]
        simp only [true_and]
        exact ⟨fun _ => ⟨hnil, hd, by omega⟩, fun _ => trivial⟩
      · rw [if_neg hv]
        constructor
        · intro h; cases h
        · intro h; omega
    · have hex : ∃ c ∈ s, ¬(48 ≤ c.val ∧ c.val ≤ 57) := by
        by_contra hcon
        apply hd
        intro c hc
        by_contra hnd
        exact hcon ⟨c, hc, hnd⟩
      have := parseLoop_not_digit s (2 ^ bits - 1) s 0 hex
      constructor
      · intro h; exact absurd h this
      · intro h; exact absurd h.2.1 hd

/-- The value `ParseUint` returns on a valid text. -/
theorem ParseUint_value (s : List Byte) (bits : Nat) (hb : bits ≤ 64) (h : isUintText bits s) :
    ParseUint s bits = (decVal s, none) := by
  have hpow : 2 ^ bits ≤ 2 ^ 64 := Nat.pow_le_pow_right (by decide) hb
  have hpos : 0 < 2 ^ bits := Nat.pow_pos (by decide)
  obtain ⟨hnil, hd, hv⟩ := h
  unfold ParseUint
  rw [if_neg hnil, parseLoop_digits s (2 ^ bits - 1) (by omega) s 0 (Nat.zero_le _) hd]
  unfold decVal at hv ⊢
  rw [if_pos (by omega)]
/-! ## Decoding a text of six segments -/

theorem exists_first_sep (sep : Byte) (s : List Byte) (h : sep ∈ s) :
    ∃ a t, s = a ++ sep :: t ∧ sep ∉ a := by
  induction s with
  | nil => simp at h
  | cons c cs ih =>
    by_cases hc : c = sep
    · exact ⟨[], cs, by simp [hc], by simp⟩
    · rcases List.mem_cons.mp h with h | h
      · exact absurd h.symm hc
      · obtain ⟨a, t, e, hn⟩ := ih h
        refine ⟨c :: a, t, by simp [e], ?_⟩
        simp only [List.mem_cons, not_or]
        exact ⟨fun h' => hc h'.symm, hn⟩

theorem SplitN_keyval (k v : List Byte) (hk : equals ∉ k) :
    SplitN (k ++ equals :: v) equals 2 = [k, v] := by
  have := genSplit_cut equals 0 k v hk
  simpa [SplitN, genSplit] using this

theorem SplitN_no_equals (s : List Byte) (h : equals ∉ s) : SplitN s equals 2 = [s] := by
  simp only [SplitN, Nat.reduceSub, if_neg (show (2 : Nat) ≠ 0 by decide)]
  exact genSplit_last equals 1 s h

theorem SplitN_segments (s0 s1 s2 s3 s4 rest : List Byte) (h0 : dollar ∉ s0)
    (h1 : dollar ∉ s1) (h2 : dollar ∉ s2) (h3 : dollar ∉ s3) (h4 : dollar ∉ s4) :
    SplitN (segments s0 s1 s2 s3 s4 rest) dollar 6 = [s0, s1, s2, s3, s4, rest] := by
  simp only [segments, SplitN, Nat.reduceSub, if_neg (show (6 : Nat) ≠ 0 by decide)]
  rw [genSplit_cut _ _ _ _ h0, genSplit_cut _ _ _ _ h1, genSplit_cut _ _ _ _ h2,
    genSplit_cut _ _ _ _ h3, genSplit_cut _ _ _ _ h4]
  rfl

/-- The decoder on a text of six segments whose version token is `key=value`. -/
theorem newFromHash_segments (s0 s1 vk vv s3 s4 rest : List Byte) (h0 : dollar ∉ s0)
    (h1 : dollar ∉ s1) (h2 : dollar ∉ vk ++ equals :: vv) (h3 : dollar ∉ s3)
    (h4 : dollar ∉ s4) (hk : equals ∉ vk) :
    newFromHash (segments s0 s1 (vk ++ equals :: vv) s3 s4 rest) =
      match parsePairs (SplitN s3 comma 3) (0, 0, 0) with
      | .panicked => .panicked
      | .err e => .err e
      | .ret (mem, tim, par) =>
        .ret { salt := s4, hash := rest, variant := s1,
               version := (ParseUint vv 8).1 % 2 ^ 8, memoryCost := mem, timeCost := tim,
               parallelism := par } := by
  unfold newFromHash
  simp only [SplitN_segments s0 s1 _ s3 s4 rest h0 h1 h2 h3 h4, SplitN_keyval vk vv hk,
    List.getElem?_cons_succ, List.getElem?_cons_zero]

/-- One pass of the loop over `pairs` on a piece `key=value`. -/
theorem parsePairs_keyval (k v : List Byte) (rest : List (List Byte)) (mem tim par : Nat)
    (hk : equals ∉ k) :
    parsePairs ((k ++ equals :: v) :: rest) (mem, tim, par) =
      match ParseUint v 32 with
      | (_, some e) => .err e
      | (tmp, none) =>
        if k = ascii "m" then parsePairs rest (tmp % 2 ^ 32, tim, par)
        else if k = ascii "t" then parsePairs rest (mem, tmp % 2 ^ 32, par)
        else if k = ascii "p" then parsePairs rest (mem, tim, tmp % 2 ^ 8)
        else parsePairs rest (mem, tim, par) := by
  rw [parsePairs]
  simp only [SplitN_keyval k v hk, List.getElem?_cons_succ, List.getElem?_cons_zero]

/-- One pass of the loop over `pairs` on a piece without an equals sign. -/
theorem parsePairs_no_equals (p : List Byte) (rest : List (List Byte)) (acc : Nat × Nat × Nat)
    (hp : equals ∉ p) : parsePairs (p :: rest) acc = .panicked := by
  obtain ⟨mem, tim, par⟩ := acc
  rw [parsePairs]
  simp only [SplitN_no_equals p hp, List.getElem?_cons_succ, List.getElem?_nil]
/-! ## The params token -/

theorem comma_not_mem_pairText (p : List Byte × List Byte) (h : pairOk p) :
    comma ∉ pairText p := by
  obtain ⟨_, hk, hv⟩ := h
  simp only [pairText, List.mem_append, List.mem_cons, not_or]
  exact ⟨hk, by decide, hv⟩

/-- The pieces cut from the params token of one or more pairs. -/
theorem SplitN_paramsText (pairs : List (List Byte × List Byte)) (hne : pairs ≠ [])
    (hok : ∀ p ∈ pairs, pairOk p) :
    SplitN (paramsText pairs) comma 3 = (piecesOf pairs).map pairText := by
  simp only [SplitN, Nat.reduceSub, if_neg (show (3 : Nat) ≠ 0 by decide)]
  match pairs, hne, hok with
  | [p], _, hok =>
    have hp := comma_not_mem_pairText p (hok p (by simp))
    simp only [paramsText, piecesOf, List.map_cons, List.map_nil]
    exact genSplit_last comma 2 _ hp
  | [p, q], _, hok =>
    have hp := comma_not_mem_pairText p (hok p (by simp))
    have hq := comma_not_mem_pairText q (hok q (by simp))
    simp only [paramsText, piecesOf, List.map_cons, List.map_nil]
    rw [genSplit_cut _ _ _ _ hp, genSplit_last comma 1 _ hq]
  | [p, q, r], _, hok =>
    have hp := comma_not_mem_pairText p (hok p (by simp))
    have hq := comma_not_mem_pairText q (hok q (by simp))
    simp only [paramsText, piecesOf, List.map_cons, List.map_nil]
    rw [genSplit_cut _ _ _ _ hp, genSplit_cut _ _ _ _ hq]
    rfl
  | p :: q :: r :: s :: rest, _, hok =>
    have hp := comma_not_mem_pairText p (hok p (by simp))
    have hq := comma_not_mem_pairText q (hok q (by simp))
    simp only [paramsText, piecesOf, List.map_cons, List.map_nil]
    rw [genSplit_cut _ _ _ _ hp, genSplit_cut _ _ _ _ hq]
    simp [genSplit, pairText]

theorem piecesOf_keys (pairs : List (List Byte × List Byte))
    (hok : ∀ p ∈ pairs, pairOk p) : ∀ p ∈ piecesOf pairs, equals ∉ p.1 := by
  match pairs, hok with
  | [], _ => intro p hp; simp [piecesOf] at hp
  | [a], hok => intro p hp; exact (hok p (by simpa [piecesOf] using hp)).1
  | [a, b], hok => intro p hp; exact (hok p (by simpa [piecesOf] using hp)).1
  | [a, b, c], hok => intro p hp; exact (hok p (by simpa [piecesOf] using hp)).1
  | a :: b :: c :: d :: rest, hok =>
    intro p hp
    simp only [piecesOf, List.mem_cons, List.mem_singleton, List.not_mem_nil, or_false] at hp
    rcases hp with rfl | rfl | rfl
    · exact (hok _ (by simp)).1
    · exact (hok _ (by simp)).1
    · exact (hok c (by simp)).1

theorem piecesOf_short (pairs : List (List Byte × List Byte)) (h : pairs.length ≤ 3) :
    piecesOf pairs = pairs := by
  match pairs, h with
  | [], _ => rfl
  | [_], _ => rfl
  | [_, _], _ => rfl
  | [_, _, _], _ => rfl
  | _ :: _ :: _ :: _ :: _, h => simp at h

/-- With more than three pairs the third piece has a comma in its value. -/
theorem piecesOf_long (pairs : List (List Byte × List Byte)) (h : 3 < pairs.length) :
    ∃ p ∈ piecesOf pairs, comma ∈ p.2 := by
  match pairs, h with
  | [], h => simp at h
  | [_], h => simp at h
  | [_, _], h => simp at h
  | [_, _, _], h => simp at h
  | a :: b :: c :: d :: rest, _ =>
    exact ⟨(c.1, c.2 ++ comma :: paramsText (d :: rest)), by simp [piecesOf], by simp⟩

/-- The loop over pieces `key=value` returns the error of a value that does
not parse. -/
theorem parsePairs_kv_err (kvs : List (List Byte × List Byte)) :
    ∀ acc : Nat × Nat × Nat, (∀ p ∈ kvs, equals ∉ p.1) →
      (∃ p ∈ kvs, (ParseUint p.2 32).2 ≠ none) →
      ∃ e, parsePairs (kvs.map pairText) acc = .err e := by
  induction kvs with
  | nil => intro acc _ h; simp at h
  | cons kv rest ih =>
    intro acc hk hbad
    obtain ⟨mem, tim, par⟩ := acc
    have hkv := hk kv (List.mem_cons_self _ _)
    have hrest : ∀ p ∈ rest, equals ∉ p.1 := fun p hp => hk p (List.mem_cons_of_mem _ hp)
    simp only [List.map_cons, pairText]
    rw [parsePairs_keyval kv.1 kv.2 _ mem tim par hkv]
    cases hparse : ParseUint kv.2 32 with
    | mk tmp e =>
      cases e with
      | some e => exact ⟨e, rfl⟩
      | none =>
        have hbad' : ∃ p ∈ rest, (ParseUint p.2 32).2 ≠ none := by
          obtain ⟨p, hp, hne⟩ := hbad
          rcases List.mem_cons.mp hp with rfl | hp
          · rw [hparse] at hne; exact absurd rfl hne
          · exact ⟨p, hp, hne⟩
        simp only
        have ih' : ∀ acc, ∃ e, parsePairs (List.map (fun p => p.1 ++ equals :: p.2) rest) acc =
            .err e := fun acc => ih acc hrest hbad'
        split
        · exact ih' _
        · split
          · exact ih' _
          · split
            · exact ih' _
            · exact ih' _

theorem lastValue_mod (key : List Byte) (ps : List (List Byte × List Byte)) :
    ∀ a : Nat, lastValue key (a % 2 ^ 8) ps % 2 ^ 8 = lastValue key a ps % 2 ^ 8 := by
  induction ps with
  | nil => intro a; simp [lastValue]
  | cons p ps ih =>
    intro a
    simp only [lastValue]
    split
    · rfl
    · exact ih a

/-- The loop over pieces `key=value` whose values all parse: each of the three
variables ends with the value of the last pair with its key. -/
theorem parsePairs_kv_ok (kvs : List (List Byte × List Byte)) :
    ∀ mem tim par : Nat, par < 2 ^ 8 → (∀ p ∈ kvs, equals ∉ p.1) →
      (∀ p ∈ kvs, isUintText 32 p.2) →
      parsePairs (kvs.map pairText) (mem, tim, par) =
        .ret (lastValue (ascii "m") mem kvs, lastValue (ascii "t") tim kvs,
          lastValue (ascii "p") par kvs % 2 ^ 8) := by
  induction kvs with
  | nil =>
    intro mem tim par hp _ _
    simp only [List.map_nil, parsePairs, lastValue, Nat.mod_eq_of_lt hp]
  | cons kv rest ih =>
    intro mem tim par hp hk hv
    have hkv := hk kv (List.mem_cons_self _ _)
    have hrest : ∀ p ∈ rest, equals ∉ p.1 := fun p hp => hk p (List.mem_cons_of_mem _ hp)
    have hvrest : ∀ p ∈ rest, isUintText 32 p.2 := fun p hp => hv p (List.mem_cons_of_mem _ hp)
    have hval := hv kv (List.mem_cons_self _ _)
    have h32 : decVal kv.2 % 2 ^ 32 = decVal kv.2 := Nat.mod_eq_of_lt hval.2.2
    simp only [List.map_cons, pairText]
    rw [parsePairs_keyval kv.1 kv.2 _ mem tim par hkv, ParseUint_value kv.2 32 (by decide) hval]
    simp only [lastValue]
    by_cases hm : kv.1 = ascii "m"
    · have ht : kv.1 ≠ ascii "t" := by rw [hm]; decide
      have hpk : kv.1 ≠ ascii "p" := by rw [hm]; decide
      rw [if_pos hm, if_pos hm, if_neg ht, if_neg hpk, h32]
      exact ih _ _ _ hp hrest hvrest
    · by_cases ht : kv.1 = ascii "t"
      · have hpk : kv.1 ≠ ascii "p" := by rw [ht]; decide
        rw [if_neg hm, if_pos ht, if_neg hm, if_pos ht, if_neg hpk, h32]
        exact ih _ _ _ hp hrest hvrest
      · by_cases hpk : kv.1 = ascii "p"
        · rw [if_neg hm, if_neg ht, if_pos hpk, if_neg hm, if_neg ht, if_pos hpk,
            ih _ _ _ (Nat.mod_lt _ (by decide)) hrest hvrest, lastValue_mod]
        · rw [if_neg hm, if_neg ht, if_neg hpk, if_neg hm, if_neg ht, if_neg hpk]
          exact ih _ _ _ hp hrest hvrest

/-- A pair with another key plays no part in the value given to `key`. -/
theorem lastValue_skip (key k v : List Byte) (hk : k ≠ key)
    (pre post : List (List Byte × List Byte)) :
    ∀ cur, lastValue key cur (pre ++ (k, v) :: post) = lastValue key cur (pre ++ post) := by
  induction pre with
  | nil => intro cur; simp [lastValue, hk]
  | cons p pre ih => intro cur; simp only [List.cons_append, lastValue]; exact ih _
theorem parseLoop_err_form (s0 : List Byte) (maxVal : Nat) (cs : List Byte) :
    ∀ acc e, (parseLoop s0 maxVal cs acc).2 = some e → ∃ cause, e = .NumError s0 cause := by
  induction cs with
  | nil => intro acc e h; simp [parseLoop] at h
  | cons c cs ih =>
    intro acc e h
    simp only [parseLoop] at h
    split at h
    · split at h
      · exact ⟨_, (Option.some.inj h).symm⟩
      · split at h
        · exact ⟨_, (Option.some.inj h).symm⟩
        · exact ih _ e h
    · exact ⟨_, (Option.some.inj h).symm⟩

/-- Every error of `ParseUint` is a `NumError` that carries the text. -/
theorem ParseUint_err_form (s : List Byte) (bits : Nat) (e : Error)
    (h : (ParseUint s bits).2 = some e) : ∃ cause, e = .NumError s cause := by
  unfold ParseUint at h
  split at h
  · exact ⟨_, (Option.some.inj h).symm⟩
  · exact parseLoop_err_form s _ s 0 e h

/-- The error that the loop over pieces `key=value` returns is a `NumError`. -/
theorem parsePairs_kv_err_form (kvs : List (List Byte × List Byte)) :
    ∀ (acc : Nat × Nat × Nat) (e : Error), (∀ p ∈ kvs, equals ∉ p.1) →
      parsePairs (kvs.map pairText) acc = .err e → ∃ num cause, e = .NumError num cause := by
  induction kvs with
  | nil => intro acc e _ h; simp [parsePairs] at h
  | cons kv rest ih =>
    intro acc e hk h
    obtain ⟨mem, tim, par⟩ := acc
    have hkv := hk kv (List.mem_cons_self _ _)
    have hrest : ∀ p ∈ rest, equals ∉ p.1 := fun p hp => hk p (List.mem_cons_of_mem _ hp)
    simp only [List.map_cons, pairText] at h
    rw [parsePairs_keyval kv.1 kv.2 _ mem tim par hkv] at h
    cases hparse : ParseUint kv.2 32 with
    | mk tmp e' =>
      rw [hparse] at h
      cases e' with
      | some e' =>
        simp only [Outcome.err.injEq] at h
        obtain ⟨cause, hc⟩ := ParseUint_err_form kv.2 32 e' (by rw [hparse])
        exact ⟨_, cause, h ▸ hc⟩
      | none =>
        simp only at h
        split at h
        · exact ih _ e hrest h
        · split at h
          · exact ih _ e hrest h
          · split at h
            · exact ih _ e hrest h
            · exact ih _ e hrest h

/-- The decoder on a text of six segments whose version token is `key=value`
and whose params token is made of one or more pairs. -/
theorem newFromHash_pairs (s0 s1 vk vv s4 rest : List Byte)
    (pairs : List (List Byte × List Byte))
    (hseg : segmentsOk s0 s1 (vk ++ equals :: vv) (paramsText pairs) s4) (hk : equals ∉ vk)
    (hne : pairs ≠ []) (hok : ∀ p ∈ pairs, pairOk p) :
    newFromHash (segments s0 s1 (vk ++ equals :: vv) (paramsText pairs) s4 rest) =
      match parsePairs ((piecesOf pairs).map pairText) (0, 0, 0) with
      | .panicked => .panicked
      | .err e => .err e
      | .ret (mem, tim, par) =>
        .ret { salt := s4, hash := rest, variant := s1,
               version := (ParseUint vv 8).1 % 2 ^ 8, memoryCost := mem, timeCost := tim,
               parallelism := par } := by
  obtain ⟨h0, h1, h2, h3, h4⟩ := hseg
  rw [newFromHash_segments s0 s1 vk vv _ s4 rest h0 h1 h2 h3 h4 hk,
    SplitN_paramsText pairs hne hok]

/-- The decoder on such a text when every value of the pieces parses. -/
theorem newFromHash_pairs_ok (s0 s1 vk vv s4 rest : List Byte)
    (pairs : List (List Byte × List Byte))
    (hseg : segmentsOk s0 s1 (vk ++ equals :: vv) (paramsText pairs) s4) (hk : equals ∉ vk)
    (hvv : isUintText 8 vv) (hne : pairs ≠ []) (hlen : pairs.length ≤ 3)
    (hok : ∀ p ∈ pairs, pairOk p) (hval : ∀ p ∈ pairs, isUintText 32 p.2) :
    newFromHash (segments s0 s1 (vk ++ equals :: vv) (paramsText pairs) s4 rest) =
      .ret { variant := s1, version := decVal vv, salt := s4, hash := rest,
             memoryCost := lastValue (ascii "m") 0 pairs,
             timeCost := lastValue (ascii "t") 0 pairs,
             parallelism := lastValue (ascii "p") 0 pairs % 2 ^ 8 } := by
  rw [newFromHash_pairs s0 s1 vk vv s4 rest pairs hseg hk hne hok, piecesOf_short pairs hlen,
    parsePairs_kv_ok pairs 0 0 0 (by decide) (fun p hp => (hok p hp).1) hval,
    ParseUint_value vv 8 (by decide) hvv]
  simp only [Nat.mod_eq_of_lt hvv.2.2]

/-- The decoder on such a text when the value of some piece does not parse. -/
theorem newFromHash_pairs_err (s0 s1 vk vv s4 rest : List Byte)
    (pairs : List (List Byte × List Byte))
    (hseg : segmentsOk s0 s1 (vk ++ equals :: vv) (paramsText pairs) s4) (hk : equals ∉ vk)
    (hne : pairs ≠ []) (hok : ∀ p ∈ pairs, pairOk p)
    (hbad : ∃ p ∈ piecesOf pairs, (ParseUint p.2 32).2 ≠ none) :
    ∃ num cause, newFromHash (segments s0 s1 (vk ++ equals :: vv) (paramsText pairs) s4 rest) =
      .err (.NumError num cause) := by
  obtain ⟨e, he⟩ := parsePairs_kv_err (piecesOf pairs) (0, 0, 0) (piecesOf_keys pairs hok) hbad
  obtain ⟨num, cause, hform⟩ := parsePairs_kv_err_form (piecesOf pairs) (0, 0, 0) e
    (piecesOf_keys pairs hok) he
  refine ⟨num, cause, ?_⟩
  rw [newFromHash_pairs s0 s1 vk vv s4 rest pairs hseg hk hne hok, he, hform]

theorem ParseUint_comma (v : List Byte) (h : comma ∈ v) : (ParseUint v 32).2 ≠ none := by
  intro hok
  have := ((ParseUint_ok_iff v 32 (by decide)).mp hok).2.1 comma h
  revert this
  decide

theorem Compare_decode_err (x : Ext) (reg : Registry) (h pw : List Byte) (e : Error)
    (hd : newFromHash h = .err e) : CompareHashAndPassword x reg h pw = ⟨.err e, 0⟩ := by
  unfold CompareHashAndPassword
  rw [hd]

theorem toy_compare_of (h : List Byte) (hdec : newFromHash h = .ret toyRecord) :
    CompareHashAndPassword toyExt toyReg h (ascii "pw") = ⟨.ret (), 2⟩ := by
  have hc : (stretched toyExt toyExt.IDKey toyReg (ascii "pw") (ascii "HHH") 1 8 1 4).calls =
      2 := by
    rw [stretched_eq _ _ _ _ _ _ _ _ _ (by decide)]
    decide
  have hd : (stretched toyExt toyExt.IDKey toyReg (ascii "pw") toyRecord.salt
      toyRecord.timeCost toyRecord.memoryCost toyRecord.parallelism toyReg.MaxTagLen).val =
      some toyRecord.hash := toy_digest
  rw [Compare_decoded toyExt toyReg h (ascii "pw") toyRecord
    (stretched toyExt toyExt.IDKey) toyRecord.hash hdec (getVariant_argon2id toyExt)
    (by decide) hd, if_pos rfl]
  exact congrArg _ hc

/-- The error of the version's `ParseUint` is dropped: a value that is no
number gives the version 0, one that is out of range the version 255. -/
theorem newFromHash_version_value_dropped :
    newFromHash (ascii "$argon2id$v=abc$m=8,t=1,p=1$HHH$AAAH") =
        .ret { toyRecord with version := 0 } ∧
      newFromHash (ascii "$argon2id$v=300$m=8,t=1,p=1$HHH$AAAH") =
        .ret { toyRecord with version := 255 } ∧
      CompareHashAndPassword toyExt toyReg (ascii "$argon2id$v=abc$m=8,t=1,p=1$HHH$AAAH")
        (ascii "pw") = ⟨.err (.HashVersionNotSupportedError 0), 0⟩ := by
  refine ⟨by decide, by decide, ?_⟩
  exact Compare_decoded_version toyExt toyReg _ (ascii "pw") { toyRecord with version := 0 }
    (stretched toyExt toyExt.IDKey) (by decide) (getVariant_argon2id toyExt) (by decide)

/-! ## The registry, other passwords, wide parallelism -/

/-- The function returned by `getVariant` reads `Iterations` only. -/
theorem bound_registry (x : Ext) (name : List Byte) (bound : Bound)
    (hb : getVariant x name = .ok bound) (reg1 reg2 : Registry)
    (hi : reg1.Iterations = reg2.Iterations) : bound reg1 = bound reg2 := by
  unfold getVariant at hb
  split at hb
  · cases hb
    funext a b c d e f
    simp only [stretched, hi]
  · split at hb
    · cases hb
      funext a b c d e f
      simp only [stretched, hi]
    · cases hb

theorem toy_mismatch (reg : Registry) (digest : List Byte) (calls : Nat)
    (hs : stretched toyExt toyExt.IDKey reg (ascii "pw") (ascii "HHH") 1 8 1 reg.MaxTagLen =
      ⟨some digest, calls⟩) (hne : ascii "AAAH" ≠ digest) :
    CompareHashAndPassword toyExt reg toyText (ascii "pw") =
      ⟨.err .ErrMismatchedHashAndPassword, calls⟩ := by
  have hs' : stretched toyExt toyExt.IDKey reg (ascii "pw") toyRecord.salt toyRecord.timeCost
      toyRecord.memoryCost toyRecord.parallelism reg.MaxTagLen = ⟨some digest, calls⟩ := hs
  have hne' : ¬toyRecord.hash = digest := hne
  rw [Compare_decoded toyExt reg toyText (ascii "pw") toyRecord
    (stretched toyExt toyExt.IDKey) digest (by decide) (getVariant_argon2id toyExt)
    (by decide) (by rw [hs']), if_neg hne', hs']

/-- The verifier on a generated text, for any password, when the two calls
`argon2(...)` return the digests `d1` and `d2`. -/
theorem Compare_Generate_decoded (x : Ext) (reg : Registry) (variant p1 p2 s d1 d2 : List Byte)
    (bound : Bound) (hb : getVariant x variant = .ok bound) (hdv : dollar ∉ variant)
    (hr : x.randRead reg.MaxSaltSize = .ok s)
    (hds : dollar ∉ x.base64Encode (copy (List.replicate reg.MaxSaltSize 0) s).1)
    (hreg : reg.valid)
    (h1 : (bound reg p1 (x.base64Encode (copy (List.replicate reg.MaxSaltSize 0) s).1)
      reg.TimeCost reg.MemoryCost reg.Threads reg.MaxTagLen).val = some d1)
    (h2 : (bound reg p2 (x.base64Encode (copy (List.replicate reg.MaxSaltSize 0) s).1)
      reg.TimeCost reg.MemoryCost reg.Threads reg.MaxTagLen).val = some d2) :
    (GenerateFromPassword x reg variant p1).val = .ret (canonical
        { variant := variant, version := version, timeCost := reg.TimeCost,
          memoryCost := reg.MemoryCost, parallelism := reg.Threads,
          salt := x.base64Encode (copy (List.replicate reg.MaxSaltSize 0) s).1, hash := d1 }) ∧
      (CompareHashAndPassword x reg (canonical
        { variant := variant, version := version, timeCost := reg.TimeCost,
          memoryCost := reg.MemoryCost, parallelism := reg.Threads,
          salt := x.base64Encode (copy (List.replicate reg.MaxSaltSize 0) s).1,
          hash := d1 }) p2).val =
        if d1 = d2 then .ret () else .err .ErrMismatchedHashAndPassword := by
  obtain ⟨_, ht, hm, hth, _, _⟩ := hreg
  have hnew := newFromPassword_read x reg variant p1 s bound d1 hr hb h1
  generalize x.base64Encode (copy (List.replicate reg.MaxSaltSize 0) s).1 = salt
    at hnew hds h1 h2
  refine ⟨?_, ?_⟩
  · unfold GenerateFromPassword
    rw [hnew]
    simp only [Hash_eq_canonical]
  · have hdec := newFromHash_canonical []
      { variant := variant, version := version, timeCost := reg.TimeCost,
        memoryCost := reg.MemoryCost, parallelism := reg.Threads, salt := salt, hash := d1 }
      (by simp) (by simp [version]) hm ht hth hdv hds
    rw [List.nil_append] at hdec
    rw [Compare_decoded x reg _ p2 _ bound d2 hdec hb rfl h2]
    split <;> rfl

theorem dollar_not_mem_supported (variant : List Byte)
    (hvar : variant = ascii "argon2i" ∨ variant = ascii "argon2id") : dollar ∉ variant := by
  rcases hvar with h | h <;> subst h <;> decide

/-- Two different passwords with the same digest exist for every function
whose digests all have one length. -/
theorem exists_colliding_passwords (g : List Byte → List Byte) (n : Nat)
    (hlen : ∀ p, (g p).length = n) : ∃ p1 p2, p1 ≠ p2 ∧ g p1 = g p2 := by
  have hfin : {l : List Byte | l.length = n}.Finite := List.finite_length_eq Byte n
  obtain ⟨p1, _, p2, _, hne, heq⟩ :=
    Set.infinite_univ.exists_ne_map_eq_of_mapsTo (f := g) (fun p _ => hlen p) hfin
  exact ⟨p1, p2, hne, heq⟩

/-- For primitives whose digests all have the requested length, and a
registry whose costs the primitive accepts, two different passwords exist of
which the second verifies against the text generated for the first. -/
theorem exists_accepted_other_password (x : Ext) (reg : Registry) (variant s : List Byte)
    (hvar : variant = ascii "argon2i" ∨ variant = ascii "argon2id")
    (hr : x.randRead reg.MaxSaltSize = .ok s) (henc : ∀ bs, dollar ∉ x.base64Encode bs)
    (hreg : reg.valid) (hp : primReturns reg.TimeCost reg.Threads reg.MaxTagLen)
    (hid : ∀ a b c d e f, (x.IDKey a b c d e f).length = f)
    (hkey : ∀ a b c d e f, (x.Key a b c d e f).length = f) :
    ∃ p1 p2 text, p1 ≠ p2 ∧ (GenerateFromPassword x reg variant p1).val = .ret text ∧
      (CompareHashAndPassword x reg text p2).val = .ret () := by
  have hdv := dollar_not_mem_supported variant hvar
  have key : ∀ (alg : Prim), (∀ a b c d e f, (alg a b c d e f).length = f) →
      getVariant x variant = .ok (stretched x alg) →
      ∃ p1 p2 text, p1 ≠ p2 ∧ (GenerateFromPassword x reg variant p1).val = .ret text ∧
        (CompareHashAndPassword x reg text p2).val = .ret () := by
    intro alg hlen hb
    obtain ⟨p1, p2, hne, heq⟩ := exists_colliding_passwords
      (fun p => alg p (x.base64Encode (copy (List.replicate reg.MaxSaltSize 0) s).1)
        reg.TimeCost reg.MemoryCost reg.Threads reg.MaxTagLen) reg.MaxTagLen
      (fun p => hlen _ _ _ _ _ _)
    have heq' : alg p1 (x.base64Encode (copy (List.replicate reg.MaxSaltSize 0) s).1)
        reg.TimeCost reg.MemoryCost reg.Threads reg.MaxTagLen =
      alg p2 (x.base64Encode (copy (List.replicate reg.MaxSaltSize 0) s).1)
        reg.TimeCost reg.MemoryCost reg.Threads reg.MaxTagLen := heq
    obtain ⟨hgen, hcmp⟩ := Compare_Generate_decoded x reg variant p1 p2 s _ _
      (stretched x alg) hb hdv hr (henc _) hreg
      (by rw [stretched_eq _ _ _ _ _ _ _ _ _ hp])
      (by rw [stretched_eq _ _ _ _ _ _ _ _ _ hp])
    refine ⟨p1, p2, _, hne, hgen, ?_⟩
    rw [hcmp, if_pos]
    rw [heq']
  rcases hvar with h | h
  · exact key x.Key hkey (h ▸ getVariant_argon2i x)
  · exact key x.IDKey hid (h ▸ getVariant_argon2id x)

theorem parsePairs_psToken_wide (r : hashed) (hm : r.memoryCost < 2 ^ 32)
    (ht : r.timeCost < 2 ^ 32) (hp : r.parallelism < 2 ^ 32) :
    parsePairs (SplitN r.psToken comma 3) (0, 0, 0) =
      .ret (r.memoryCost, r.timeCost, r.parallelism % 2 ^ 8) := by
  rw [SplitN_psToken, parsePairs_step _ _ _ _ _ _ (by decide) hm,
    if_pos (by decide), parsePairs_step _ _ _ _ _ _ (by decide) ht, if_neg (by decide),
    if_pos (by decide), parsePairs_step _ _ _ _ _ _ (by decide) hp, if_neg (by decide),
    if_neg (by decide), if_pos (by decide), parsePairs, Nat.mod_eq_of_lt hm,
    Nat.mod_eq_of_lt ht]

/-- Decoding a canonical text whose parallelism value takes up to 32 bits. -/
theorem newFromHash_canonical_wide (r : hashed) (hver : r.version < 2 ^ 8)
    (hm : r.memoryCost < 2 ^ 32) (ht : r.timeCost < 2 ^ 32) (hp : r.parallelism < 2 ^ 32)
    (hv : dollar ∉ r.variant) (hs : dollar ∉ r.salt) :
    newFromHash (canonical r) = .ret { r with parallelism := r.parallelism % 2 ^ 8 } := by
  have hsplit := SplitN_canonical [] r (by simp) hv hs
  rw [List.nil_append] at hsplit
  unfold newFromHash
  simp only [hsplit, SplitN_vToken, List.getElem?_cons_succ,
    List.getElem?_cons_zero, parsePairs_psToken_wide r hm ht hp,
    ParseUint_fmtUint _ 8 (by decide) hver, Nat.mod_eq_of_lt hver]

theorem fmtUint_injective (a b : Nat) (ha : a < 2 ^ 64) (hb : b < 2 ^ 64)
    (h : fmtUint a = fmtUint b) : a = b := by
  have h1 := ParseUint_fmtUint a 64 (Nat.le_refl _) ha
  have h2 := ParseUint_fmtUint b 64 (Nat.le_refl _) hb
  rw [h] at h1
  rw [h1] at h2
  exact (Prod.mk.inj h2).1

/-- Two canonical texts of records with no delimiter in variant and salt are
equal only if the parallelism values are. -/
theorem canonical_parallelism (r1 r2 : hashed) (hv1 : dollar ∉ r1.variant)
    (hs1 : dollar ∉ r1.salt) (hv2 : dollar ∉ r2.variant) (hs2 : dollar ∉ r2.salt)
    (hp1 : r1.parallelism < 2 ^ 64) (hp2 : r2.parallelism < 2 ^ 64)
    (h : canonical r1 = canonical r2) : r1.parallelism = r2.parallelism := by
  have e1 := SplitN_canonical [] r1 (by simp) hv1 hs1
  have e2 := SplitN_canonical [] r2 (by simp) hv2 hs2
  rw [List.nil_append] at e1 e2
  rw [h, e2] at e1
  have hps : r2.psToken = r1.psToken := by
    simp only [List.cons.injEq] at e1
    exact e1.2.2.2.1
  have q1 := SplitN_psToken r1
  have q2 := SplitN_psToken r2
  rw [hps, q1] at q2
  simp only [List.cons.injEq, and_true, true_and] at q2
  exact fmtUint_injective _ _ hp1 hp2 q2.2.2

/-! ## Index safety of the decoder -/

theorem indexByte_some (sep : Byte) (s : List Byte) :
    ∀ m, indexByte sep s = some m → sep ∉ s.take m ∧ s = s.take m ++ sep :: s.drop (m + 1) := by
  induction s with
  | nil => intro m h; simp [indexByte] at h
  | cons c cs ih =>
    intro m h
    simp only [indexByte] at h
    split at h
    · rename_i hc
      cases h
      simp [hc]
    · rename_i hc
      cases hi : indexByte sep cs with
      | none => rw [hi] at h; simp at h
      | some k =>
        rw [hi] at h
        simp only [Option.map_some', Option.some.injEq] at h
        subst h
        obtain ⟨h1, h2⟩ := ih k hi
        constructor
        · simp only [List.take_succ_cons, List.mem_cons, not_or]
          exact ⟨fun h' => hc h'.symm, h1⟩
        · simp only [List.take_succ_cons, List.drop_succ_cons, List.cons_append,
            List.cons.injEq, true_and]
          exact h2

theorem not_mem_of_indexByte_none (sep : Byte) (s : List Byte) (h : indexByte sep s = none) :
    sep ∉ s := by
  induction s with
  | nil => simp
  | cons c cs ih =>
    simp only [indexByte] at h
    split at h
    · cases h
    · rename_i hc
      simp only [List.mem_cons, not_or]
      refine ⟨fun h' => hc h'.symm, ih ?_⟩
      cases hi : indexByte sep cs with
      | none => rfl
      | some k => rw [hi] at h; simp at h

/-- The number of pieces that `genSplit` cuts. -/
theorem genSplit_length (sep : Byte) (k : Nat) :
    ∀ s, (genSplit sep k s).length = min k (s.count sep) + 1 := by
  induction k with
  | zero => intro s; simp [genSplit]
  | succ k ih =>
    intro s
    simp only [genSplit]
    cases hi : indexByte sep s with
    | none =>
      have := not_mem_of_indexByte_none sep s hi
      simp [List.count_eq_zero_of_not_mem this]
    | some m =>
      obtain ⟨h1, h2⟩ := indexByte_some sep s m hi
      have hc : s.count sep = (s.drop (m + 1)).count sep + 1 := by
        conv_lhs => rw [h2]
        simp [List.count_append, List.count_eq_zero_of_not_mem h1]
      simp only [List.length_cons, ih, hc]
      omega

theorem SplitN_dollar_length (input : List Byte) :
    (SplitN input dollar 6).length = min 5 (input.count dollar) + 1 := by
  simp only [SplitN, Nat.reduceSub, if_neg (show (6 : Nat) ≠ 0 by decide)]
  exact genSplit_length dollar 5 input

/-- The loop over pieces that all hold an equals sign does not panic. -/
theorem parsePairs_safe (pieces : List (List Byte)) :
    ∀ acc : Nat × Nat × Nat, (∀ piece ∈ pieces, equals ∈ piece) →
      parsePairs pieces acc ≠ .panicked := by
  induction pieces with
  | nil => intro acc _; simp [parsePairs]
  | cons p rest ih =>
    intro acc h
    obtain ⟨mem, tim, par⟩ := acc
    obtain ⟨k, v, e, hk⟩ := exists_first_sep equals p (h p (List.mem_cons_self _ _))
    have hrest : ∀ piece ∈ rest, equals ∈ piece := fun q hq => h q (List.mem_cons_of_mem _ hq)
    rw [e, parsePairs_keyval k v rest mem tim par hk]
    cases hparse : ParseUint v 32 with
    | mk tmp err =>
      cases err with
      | some err => simp
      | none =>
        simp only
        split
        · exact ih _ hrest
        · split
          · exact ih _ hrest
          · split
            · exact ih _ hrest
            · exact ih _ hrest

/-- The loop over pieces that all hold an equals sign and whose values all
parse returns the three values. -/
theorem parsePairs_returns (pieces : List (List Byte)) :
    ∀ acc : Nat × Nat × Nat, (∀ piece ∈ pieces, equals ∈ piece) → valuesParse pieces →
      ∃ acc', parsePairs pieces acc = .ret acc' := by
  induction pieces with
  | nil => intro acc _ _; exact ⟨acc, by simp [parsePairs]⟩
  | cons p rest ih =>
    intro acc h hv
    obtain ⟨mem, tim, par⟩ := acc
    obtain ⟨k, v, e, hk⟩ := exists_first_sep equals p (h p (List.mem_cons_self _ _))
    have hrest : ∀ piece ∈ rest, equals ∈ piece := fun q hq => h q (List.mem_cons_of_mem _ hq)
    have hvrest : valuesParse rest := fun q hq => hv q (List.mem_cons_of_mem _ hq)
    have hpv : (ParseUint v 32).2 = none := by
      apply hv p (List.mem_cons_self _ _) v
      rw [e, SplitN_keyval k v hk]
      rfl
    rw [e, parsePairs_keyval k v rest mem tim par hk]
    cases hparse : ParseUint v 32 with
    | mk tmp err =>
      rw [hparse] at hpv
      simp only at hpv
      subst hpv
      simp only
      split
      · exact ih _ hrest hvrest
      · split
        · exact ih _ hrest hvrest
        · split
          · exact ih _ hrest hvrest
          · exact ih _ hrest hvrest

/-- The loop over pieces whose values all parse panics at the first piece
without an equals sign. -/
theorem parsePairs_panics (pieces : List (List Byte)) :
    ∀ acc : Nat × Nat × Nat, (∃ piece ∈ pieces, equals ∉ piece) → valuesParse pieces →
      parsePairs pieces acc = .panicked := by
  induction pieces with
  | nil => intro acc h _; simp at h
  | cons p rest ih =>
    intro acc h hv
    by_cases hp : equals ∈ p
    · obtain ⟨mem, tim, par⟩ := acc
      obtain ⟨k, v, e, hk⟩ := exists_first_sep equals p hp
      have hrest : ∃ piece ∈ rest, equals ∉ piece := by
        obtain ⟨q, hq, hne⟩ := h
        rcases List.mem_cons.mp hq with rfl | hq
        · exact absurd hp hne
        · exact ⟨q, hq, hne⟩
      have hvrest : valuesParse rest := fun q hq => hv q (List.mem_cons_of_mem _ hq)
      have hpv : (ParseUint v 32).2 = none := by
        apply hv p (List.mem_cons_self _ _) v
        rw [e, SplitN_keyval k v hk]
        rfl
      rw [e, parsePairs_keyval k v rest mem tim par hk]
      cases hparse : ParseUint v 32 with
      | mk tmp err =>
        rw [hparse] at hpv
        simp only at hpv
        subst hpv
        simp only
        split
        · exact ih _ hrest hvrest
        · split
          · exact ih _ hrest hvrest
          · split
            · exact ih _ hrest hvrest
            · exact ih _ hrest hvrest
    · exact parsePairs_no_equals p rest acc hp

theorem length_six {α : Type} (l : List α) (h : l.length = 6) :
    ∃ a0 a1 a2 a3 a4 a5, l = [a0, a1, a2, a3, a4, a5] := by
  match l, h with
  | [a0, a1, a2, a3, a4, a5], _ => exact ⟨a0, a1, a2, a3, a4, a5, rfl⟩

/-- On a text that is safe to index the decoder does not panic. -/
theorem newFromHash_safe (input : List Byte) (h : indexSafe input) :
    newFromHash input ≠ .panicked := by
  obtain ⟨hc, h2, h3⟩ := h
  have hlen : (SplitN input dollar 6).length = 6 := by
    rw [SplitN_dollar_length]; omega
  obtain ⟨a0, a1, a2, a3, a4, a5, hh⟩ := length_six _ hlen
  rw [hh] at h2 h3
  have he : equals ∈ a2 := h2 a2 rfl
  have hp : ∀ piece ∈ SplitN a3 comma 3, equals ∈ piece := h3 a3 rfl
  obtain ⟨k, v, rfl, hk⟩ := exists_first_sep equals a2 he
  unfold newFromHash
  simp only [hh, SplitN_keyval k v hk, List.getElem?_cons_succ, List.getElem?_cons_zero]
  have := parsePairs_safe (SplitN a3 comma 3) (0, 0, 0) hp
  cases hq : parsePairs (SplitN a3 comma 3) (0, 0, 0) with
  | panicked => exact absurd hq this
  | err e => simp
  | ret acc => simp

/-- On a text that is not safe to index the decoder panics, unless the value
of a piece of the params token fails to parse. -/
theorem newFromHash_unsafe (input : List Byte) (h : ¬indexSafe input)
    (hv : ∀ h3 ∈ (SplitN input dollar 6)[3]?, valuesParse (SplitN h3 comma 3)) :
    newFromHash input = .panicked := by
  unfold newFromHash
  simp only
  cases h2e : (SplitN input dollar 6)[2]? with
  | none => rfl
  | some h2 =>
    simp only
    by_cases he : equals ∈ h2
    · obtain ⟨k, v, rfl, hk⟩ := exists_first_sep equals h2 he
      simp only [SplitN_keyval k v hk, List.getElem?_cons_succ, List.getElem?_cons_zero]
      cases h3e : (SplitN input dollar 6)[3]? with
      | none => rfl
      | some h3 =>
        simp only
        have hvp : valuesParse (SplitN h3 comma 3) := hv h3 h3e
        by_cases hall : ∀ piece ∈ SplitN h3 comma 3, equals ∈ piece
        · obtain ⟨acc, hacc⟩ := parsePairs_returns (SplitN h3 comma 3) (0, 0, 0) hall hvp
          have hcount : ¬5 ≤ input.count dollar := by
            intro hc
            apply h
            refine ⟨hc, ?_, ?_⟩
            · intro h2' hm
              rw [h2e] at hm
              cases hm
              exact he
            · intro h3' hm
              rw [h3e] at hm
              cases hm
              exact hall
          have h5 : (SplitN input dollar 6)[5]? = none := by
            apply List.getElem?_eq_none
            rw [SplitN_dollar_length]
            omega
          rw [hacc, h5]
          simp only
          cases (SplitN input dollar 6)[4]? <;> rfl
        · have hex : ∃ piece ∈ SplitN h3 comma 3, equals ∉ piece := by
            by_contra hcon
            apply hall
            intro piece hp
            by_contra hne
            exact hcon ⟨piece, hp, hne⟩
          rw [parsePairs_panics (SplitN h3 comma 3) (0, 0, 0) hex hvp]
    · simp only [SplitN_no_equals h2 he, List.getElem?_cons_succ, List.getElem?_nil]

/-! ## Calls the primitive rejects, calls it accepts -/

/-- The hasher panics, after one call of the primitive, when the registry
holds a time cost, a thread count or a digest length the primitive rejects. -/
theorem Generate_panics (x : Ext) (reg : Registry) (variant pw s : List Byte)
    (hvar : variant = ascii "argon2i" ∨ variant = ascii "argon2id")
    (hr : x.randRead reg.MaxSaltSize = .ok s)
    (hp : ¬primReturns reg.TimeCost reg.Threads reg.MaxTagLen) :
    GenerateFromPassword x reg variant pw = ⟨.panicked, 1⟩ := by
  obtain ⟨bound, hb⟩ := getVariant_supported x variant hvar
  unfold GenerateFromPassword
  rw [newFromPassword_panics x reg variant pw s bound hr hb
    (by rw [bound_panics x variant bound hb _ _ _ _ _ _ _ hp]),
    bound_panics x variant bound hb _ _ _ _ _ _ _ hp]

/-- The verifier panics, after one call of the primitive, when the decoded
time cost, the decoded parallelism or the registry digest length is one the
primitive rejects. -/
theorem Compare_panics (x : Ext) (reg : Registry) (h pw : List Byte) (p : hashed)
    (bound : Bound) (hd : newFromHash h = .ret p) (hv : getVariant x p.variant = .ok bound)
    (hver : p.version = version) (hp : ¬primReturns p.timeCost p.parallelism reg.MaxTagLen) :
    CompareHashAndPassword x reg h pw = ⟨.panicked, 1⟩ := by
  rw [Compare_decoded_panics x reg h pw p bound hd hv hver
    (by rw [bound_panics x p.variant bound hv _ _ _ _ _ _ _ hp]),
    bound_panics x p.variant bound hv _ _ _ _ _ _ _ hp]

/-- The verifier on a decoded record with a supported variant, the compiled-in
version and costs the primitive accepts: the call `argon2(...)` returns a
digest, the result is `nil` exactly when the decoded digest field equals it,
and `ErrMismatchedHashAndPassword` otherwise. -/
theorem Compare_returns_iff_digest (x : Ext) (reg : Registry) (h pw : List Byte) (p : hashed)
    (bound : Bound) (hd : newFromHash h = .ret p) (hv : getVariant x p.variant = .ok bound)
    (hver : p.version = version) (hp : primReturns p.timeCost p.parallelism reg.MaxTagLen) :
    ∃ digest,
      (bound reg pw p.salt p.timeCost p.memoryCost p.parallelism reg.MaxTagLen).val =
        some digest ∧
      ((CompareHashAndPassword x reg h pw).val = .ret () ↔ p.hash = digest) ∧
      ((CompareHashAndPassword x reg h pw).val ≠ .ret () →
        (CompareHashAndPassword x reg h pw).val = .err .ErrMismatchedHashAndPassword) ∧
      (p.Hash = hashed.Hash
          { hash := digest, variant := p.variant, version := p.version,
            timeCost := p.timeCost, memoryCost := p.memoryCost,
            parallelism := p.parallelism, salt := p.salt } ↔ p.hash = digest) := by
  obtain ⟨digest, hdig⟩ := bound_returns x p.variant bound hv reg pw p.salt p.timeCost
    p.memoryCost p.parallelism reg.MaxTagLen hp
  refine ⟨digest, hdig, ?_, ?_, Hash_eq_iff_hash_eq p _⟩
  · rw [Compare_decoded x reg h pw p bound digest hd hv hver hdig]
    split <;> simp_all
  · rw [Compare_decoded x reg h pw p bound digest hd hv hver hdig]
    split <;> simp_all

/-! ## The claims -/

/-- C1 (round trip): for every record whose version and parallelism fit 8
bits, whose memory and time cost fit 32 bits and whose variant and salt hold
no delimiter byte, `newFromHash` applied to the output of `Hash` returns the
record itself, equal in all seven fields. -/
theorem newFromHash_Hash_roundtrip (r : hashed) (hver : r.version < 2 ^ 8)
    (hm : r.memoryCost < 2 ^ 32) (ht : r.timeCost < 2 ^ 32) (hp : r.parallelism < 2 ^ 8)
    (hv : dollar ∉ r.variant) (hs : dollar ∉ r.salt) :
    newFromHash r.Hash = .ret r := by
  rw [Hash_eq_canonical]
  exact newFromHash_canonical [] r (by simp) hver hm ht hp hv hs

theorem newFromHash_Hash_roundtrip_witness :
    dollar ∈ sampleRecord.hash ∧ newFromHash sampleRecord.Hash = .ret sampleRecord :=
  ⟨by decide, newFromHash_Hash_roundtrip sampleRecord (by decide) (by decide) (by decide)
    (by decide) (by decide) (by decide)⟩

/-- C2, the claim as stated fails: under the default registry with the time
cost set to 0, `GenerateFromPassword` panics in its first call of the
primitive, for both variants, every password and all collaborators, so no
text is returned for `CompareHashAndPassword` to accept. -/
theorem Generate_zero_time_panics :
    zeroTimeReg.valid ∧
      ∀ (x : Ext) (variant pw s : List Byte),
        variant = ascii "argon2i" ∨ variant = ascii "argon2id" →
        x.randRead zeroTimeReg.MaxSaltSize = .ok s →
        GenerateFromPassword x zeroTimeReg variant pw = ⟨.panicked, 1⟩ :=
  ⟨by decide, fun x variant pw s hvar hr =>
    Generate_panics x zeroTimeReg variant pw s hvar hr (by decide)⟩

/-- C2 as amended (self-consistency): for "argon2i" and "argon2id" and every
password, when the random read succeeds, the text codec never outputs the
delimiter and the same registry serves both calls, a registry of values its
types can hold whose time cost, thread count and digest length are at least
1, `GenerateFromPassword` returns a text on which `CompareHashAndPassword`
with the same password returns `nil`. -/
theorem Compare_Generate_self (x : Ext) (reg : Registry) (variant pw s : List Byte)
    (hvar : variant = ascii "argon2i" ∨ variant = ascii "argon2id")
    (hr : x.randRead reg.MaxSaltSize = .ok s)
    (henc : ∀ bs, dollar ∉ x.base64Encode bs) (hreg : reg.valid)
    (hp : primReturns reg.TimeCost reg.Threads reg.MaxTagLen) :
    ∃ text, (GenerateFromPassword x reg variant pw).val = .ret text ∧
      (CompareHashAndPassword x reg text pw).val = .ret () := by
  obtain ⟨bound, hb⟩ := getVariant_supported x variant hvar
  obtain ⟨digest, hdig⟩ := bound_returns x variant bound hb reg pw
    (x.base64Encode (copy (List.replicate reg.MaxSaltSize 0) s).1) reg.TimeCost reg.MemoryCost
    reg.Threads reg.MaxTagLen hp
  obtain ⟨hgen, hcmp⟩ := Compare_Generate_decoded x reg variant pw pw s digest digest bound hb
    (dollar_not_mem_supported variant hvar) hr (henc _) hreg hdig hdig
  exact ⟨_, hgen, by rw [hcmp, if_pos rfl]⟩

theorem Compare_Generate_self_witness :
    (toyReg.valid ∧ primReturns toyReg.TimeCost toyReg.Threads toyReg.MaxTagLen) ∧
      ∃ text, (GenerateFromPassword toyExt toyReg (ascii "argon2id") (ascii "pw")).val =
          .ret text ∧
        (CompareHashAndPassword toyExt toyReg text (ascii "pw")).val = .ret () :=
  ⟨by decide, Compare_Generate_self toyExt toyReg (ascii "argon2id") (ascii "pw")
    (List.replicate 3 7) (Or.inr rfl) rfl toyExt_no_dollar (by decide) (by decide)⟩

/-- C3, the code at a failing input: the text
"$argon2id$v=19$m=8,t=0,p=1$HHH$AAAH" decodes to a record with a supported
variant, the compiled-in version and the time cost 0. `CompareHashAndPassword`
hands the decoded time cost to the primitive unchecked and the call panics:
for every password, registry and collaborators the call returns neither
`nil` nor `ErrMismatchedHashAndPassword`, nor any other error. -/
theorem Compare_zero_time_panics (x : Ext) (reg : Registry) (pw : List Byte) :
    newFromHash zeroTimeText = .ret zeroTimeRecord ∧
      getVariant x zeroTimeRecord.variant = .ok (stretched x x.IDKey) ∧
      zeroTimeRecord.version = version ∧
      CompareHashAndPassword x reg zeroTimeText pw = ⟨.panicked, 1⟩ :=
  ⟨by decide, getVariant_argon2id x, rfl,
    Compare_panics x reg zeroTimeText pw zeroTimeRecord (stretched x x.IDKey) (by decide)
      (getVariant_argon2id x) rfl (by simp [primReturns, zeroTimeRecord])⟩

/-- C4 (version gating): for an input that decodes to a record with a
supported variant and a version other than the compiled-in one, 19,
`CompareHashAndPassword` returns `HashVersionNotSupportedError` of the
decoded version for every password and digest field, with no call of the
primitive. -/
theorem Compare_version_gate (x : Ext) (reg : Registry) (h pw : List Byte) (p : hashed)
    (bound : Bound) (hd : newFromHash h = .ret p) (hv : getVariant x p.variant = .ok bound)
    (hver : p.version ≠ 19) :
    version = 19 ∧
      CompareHashAndPassword x reg h pw =
        ⟨.err (.HashVersionNotSupportedError p.version), 0⟩ := by
  exact ⟨rfl, Compare_decoded_version x reg h pw p bound hd hv (by simpa [version] using hver)⟩

theorem Compare_version_gate_witness :
    newFromHash oldVersionText = .ret oldVersionRecord ∧
      CompareHashAndPassword toyExt toyReg oldVersionText (ascii "pw") =
        ⟨.err (.HashVersionNotSupportedError 18), 0⟩ :=
  ⟨by decide,
    (Compare_version_gate toyExt toyReg oldVersionText (ascii "pw") oldVersionRecord
      (stretched toyExt toyExt.IDKey) (by decide) (getVariant_argon2id toyExt)
      (by decide)).2⟩

/-- C5 (variant resolution): `getVariant` returns an error exactly when the
name is neither "argon2i" nor "argon2id", the error is
`HashVariantNotSupportedError` carrying the name, and the function returned
for "argon2id" is the stretching closure over `argon2.IDKey`, the one for
"argon2i" the closure over `argon2.Key`. -/
theorem getVariant_resolution (x : Ext) (name : List Byte) :
    ((∃ e, getVariant x name = .error e) ↔
        (name ≠ ascii "argon2i" ∧ name ≠ ascii "argon2id")) ∧
      (∀ e, getVariant x name = .error e → e = .HashVariantNotSupportedError name) ∧
      getVariant x (ascii "argon2id") = .ok (stretched x x.IDKey) ∧
      getVariant x (ascii "argon2i") = .ok (stretched x x.Key) := by
  refine ⟨?_, ?_, getVariant_argon2id x, getVariant_argon2i x⟩
  · unfold getVariant
    by_cases h1 : name = ascii "argon2id"
    · simp [h1]
    · by_cases h2 : name = ascii "argon2i"
      · subst h2
        rw [if_neg (by decide), if_pos rfl]
        simp
      · simp [h1, h2]
  · intro e he
    unfold getVariant at he
    split at he
    · cases he
    · split at he
      · cases he
      · cases he; rfl

/-- C6 (stretching chain): with a round count between 1 and 255 and
primitives that return exactly `keyLen` bytes, the function returned by
`getVariant` yields the text encoding of `d_n`, where `d_1` is the primitive
on the password and each later `d_i` the primitive on `d_(i-1)`, salt and
cost parameters unchanged. This is its result on every argument on which the
primitive returns; on the others the first call panics. -/
theorem stretched_chain (x : Ext) (reg : Registry) (a b : List Byte) (c d e f : Nat)
    (hn : 1 ≤ reg.Iterations) (h8 : reg.Iterations < 2 ^ 8)
    (hid : ∀ a b c d e f, (x.IDKey a b c d e f).length = f)
    (hkey : ∀ a b c d e f, (x.Key a b c d e f).length = f) :
    (∀ bound, getVariant x (ascii "argon2id") = .ok bound →
        (bound reg a b c d e f).val =
          if primReturns c e f then
            some (x.base64Encode (specDigest x.IDKey a b c d e f reg.Iterations))
          else none) ∧
      (∀ bound, getVariant x (ascii "argon2i") = .ok bound →
        (bound reg a b c d e f).val =
          if primReturns c e f then
            some (x.base64Encode (specDigest x.Key a b c d e f reg.Iterations))
          else none) := by
  have hmod : reg.Iterations % 2 ^ 8 = reg.Iterations := Nat.mod_eq_of_lt h8
  have hsucc : reg.Iterations - 1 + 1 = reg.Iterations := by omega
  constructor
  · intro bound hb
    rw [getVariant_argon2id] at hb
    cases hb
    by_cases hp : primReturns c e f
    · rw [stretched_eq _ _ _ _ _ _ _ _ _ hp, hmod, iterate_specDigest x.IDKey hid, hsucc,
        if_pos hp]
    · rw [stretched_panics _ _ _ _ _ _ _ _ _ hp, if_neg hp]
  · intro bound hb
    rw [getVariant_argon2i] at hb
    cases hb
    by_cases hp : primReturns c e f
    · rw [stretched_eq _ _ _ _ _ _ _ _ _ hp, hmod, iterate_specDigest x.Key hkey, hsucc,
        if_pos hp]
    · rw [stretched_panics _ _ _ _ _ _ _ _ _ hp, if_neg hp]

theorem stretched_chain_witness :
    (1 ≤ toyReg.Iterations ∧ toyReg.Iterations < 2 ^ 8) ∧
    ((∀ bound, getVariant toyExt (ascii "argon2id") = .ok bound →
        (bound toyReg (ascii "pw") (ascii "HHH") 1 8 1 4).val =
          if primReturns 1 1 4 then
            some (toyExt.base64Encode (specDigest toyExt.IDKey (ascii "pw") (ascii "HHH") 1 8 1 4
              toyReg.Iterations))
          else none) ∧
      (∀ bound, getVariant toyExt (ascii "argon2i") = .ok bound →
        (bound toyReg (ascii "pw") (ascii "HHH") 1 8 1 4).val =
          if primReturns 1 1 4 then
            some (toyExt.base64Encode (specDigest toyExt.Key (ascii "pw") (ascii "HHH") 1 8 1 4
              toyReg.Iterations))
          else none)) :=
  ⟨by decide, stretched_chain toyExt toyReg (ascii "pw") (ascii "HHH") 1 8 1 4 (by decide)
    (by decide) toyPrim_length toyKey_length⟩

/-- C7 (canonical encoding): `Hash` returns the delimiter, the variant, the
token `v=` with the decimal version, the token `m=..,t=..,p=..` with the
decimal costs, the salt and the digest, a delimiter before each; the output
starts with the delimiter and its length is 5 plus the lengths of the five
pieces, so the buffer allocated up front is filled exactly. -/
theorem Hash_canonical_encoding (h : hashed) :
    h.Hash = ascii "$" ++ h.variant ++ ascii "$v=" ++ fmtUint h.version ++ ascii "$m=" ++
        fmtUint h.memoryCost ++ ascii ",t=" ++ fmtUint h.timeCost ++ ascii ",p=" ++
        fmtUint h.parallelism ++ ascii "$" ++ h.salt ++ ascii "$" ++ h.hash ∧
      h.Hash.head? = some dollar ∧
      h.Hash.length = 5 + h.variant.length + (ascii "v=" ++ fmtUint h.version).length +
        (ascii "m=" ++ fmtUint h.memoryCost ++ ascii ",t=" ++ fmtUint h.timeCost ++
          ascii ",p=" ++ fmtUint h.parallelism).length + h.salt.length + h.hash.length := by
  refine ⟨Hash_eq_canonical h, ?_, ?_⟩
  · rw [Hash_eq_canonical, canonical_shape]
    rfl
  · rw [Hash_eq_canonical, canonical_shape]
    simp [hashed.vToken, hashed.psToken, ascii_vTok, ascii_mTok, ascii_tTok, ascii_pTok]
    omega

/-- C8, the claim as stated fails: under the default registry with the thread
count set to 0, `GenerateFromPassword` panics in its first call of the
primitive, for both variants, every password and all collaborators, whatever
bytes of the registry salt length the random source yields: it returns no
text. -/
theorem Generate_zero_threads_panics :
    zeroThreadsReg.valid ∧
      ∀ (x : Ext) (variant pw s : List Byte),
        variant = ascii "argon2i" ∨ variant = ascii "argon2id" →
        x.randRead zeroThreadsReg.MaxSaltSize = .ok s →
        s.length = zeroThreadsReg.MaxSaltSize →
        GenerateFromPassword x zeroThreadsReg variant pw = ⟨.panicked, 1⟩ :=
  ⟨by decide, fun x variant pw s hvar hr _ =>
    Generate_panics x zeroThreadsReg variant pw s hvar hr (by decide)⟩

/-- C8 as amended (generation postcondition): when the random read succeeds
with bytes `s`, `GenerateFromPassword` for a supported variant, `s` of the
registry salt length and a registry whose time cost, thread count and digest
length are at least 1 returns the canonical text of the record with that
variant, the compiled-in version, the registry costs, the salt field
`base64Encode s` and the digest field returned by the stretched operation on
the password and the encoded salt (not the raw `s`); for any other variant
it returns `HashVariantNotSupportedError` of the name and no text. -/
theorem Generate_postcondition (x : Ext) (reg : Registry) (variant pw s : List Byte)
    (hr : x.randRead reg.MaxSaltSize = .ok s) :
    (∀ bound, getVariant x variant = .ok bound → s.length = reg.MaxSaltSize →
        primReturns reg.TimeCost reg.Threads reg.MaxTagLen →
        ∃ digest,
          (bound reg pw (x.base64Encode s) reg.TimeCost reg.MemoryCost reg.Threads
            reg.MaxTagLen).val = some digest ∧
          (GenerateFromPassword x reg variant pw).val = .ret (canonical
            { variant := variant, version := version, memoryCost := reg.MemoryCost,
              timeCost := reg.TimeCost, parallelism := reg.Threads,
              salt := x.base64Encode s, hash := digest })) ∧
      (variant ≠ ascii "argon2i" ∧ variant ≠ ascii "argon2id" →
        (GenerateFromPassword x reg variant pw).val =
          .err (.HashVariantNotSupportedError variant)) := by
  constructor
  · intro bound hb hs hp
    obtain ⟨digest, hdig⟩ := bound_returns x variant bound hb reg pw (x.base64Encode s)
      reg.TimeCost reg.MemoryCost reg.Threads reg.MaxTagLen hp
    refine ⟨digest, hdig, ?_⟩
    have hcopy := copy_same_length (List.replicate reg.MaxSaltSize 0) s (by simp [hs])
    unfold GenerateFromPassword
    rw [newFromPassword_read x reg variant pw s bound digest hr hb (by rw [hcopy]; exact hdig),
      hcopy]
    simp only [Hash_eq_canonical]
  · intro h
    unfold GenerateFromPassword newFromPassword
    simp only [hr, getVariant_unsupported x variant h.1 h.2]

theorem Generate_postcondition_witness :
    (GenerateFromPassword toyExt toyReg (ascii "argon2id") (ascii "pw")).val = .ret toyText ∧
      (GenerateFromPassword toyExt toyReg (ascii "argon2") (ascii "pw")).val =
        .err (.HashVariantNotSupportedError (ascii "argon2")) := by
  have h := Generate_postcondition toyExt toyReg (ascii "argon2id") (ascii "pw")
    (List.replicate 3 7) rfl
  have h2 := Generate_postcondition toyExt toyReg (ascii "argon2") (ascii "pw")
    (List.replicate 3 7) rfl
  refine ⟨?_, h2.2 (by decide)⟩
  obtain ⟨digest, hdig, hgen⟩ := h.1 _ (getVariant_argon2id toyExt) (by decide) (by decide)
  have e : toyExt.base64Encode (List.replicate 3 7) = ascii "HHH" := by decide
  have hd : (stretched toyExt toyExt.IDKey toyReg (ascii "pw") (ascii "HHH") toyReg.TimeCost
      toyReg.MemoryCost toyReg.Threads toyReg.MaxTagLen).val = some (ascii "AAAH") := toy_digest
  rw [e, hd] at hdig
  rw [hgen, e, ← Option.some.inj hdig]
  decide

/-- C9, the claim as stated fails: a text with six delimiter bytes is decoded
to a record, whose digest field holds the sixth delimiter, and
`CompareHashAndPassword` returns `nil` or `ErrMismatchedHashAndPassword` on
it, never an error of decoding (with a registry digest length of 0 its call
of the primitive panics). -/
theorem extra_delimiter_text_decodes :
    sampleText.count dollar = 6 ∧ newFromHash sampleText = .ret sampleRecord ∧
      ∀ (x : Ext) (reg : Registry) (pw : List Byte),
        (CompareHashAndPassword x reg sampleText pw).val = .ret () ∨
        (CompareHashAndPassword x reg sampleText pw).val =
          .err .ErrMismatchedHashAndPassword ∨
        (reg.MaxTagLen = 0 ∧ (CompareHashAndPassword x reg sampleText pw).val = .panicked) := by
  refine ⟨by decide, by decide, ?_⟩
  intro x reg pw
  by_cases hp : primReturns sampleRecord.timeCost sampleRecord.parallelism reg.MaxTagLen
  · obtain ⟨digest, hdig⟩ := bound_returns x sampleRecord.variant (stretched x x.IDKey)
      (getVariant_argon2id x) reg pw sampleRecord.salt sampleRecord.timeCost
      sampleRecord.memoryCost sampleRecord.parallelism reg.MaxTagLen hp
    rw [Compare_decoded x reg sampleText pw sampleRecord (stretched x x.IDKey) digest
      (by decide) (getVariant_argon2id x) (by decide) hdig]
    split
    · exact Or.inl rfl
    · exact Or.inr (Or.inl rfl)
  · have h0 : reg.MaxTagLen = 0 := by
      simp only [primReturns, sampleRecord] at hp
      omega
    rw [Compare_panics x reg sampleText pw sampleRecord (stretched x x.IDKey) (by decide)
      (getVariant_argon2id x) (by decide) hp]
    exact Or.inr (Or.inr ⟨h0, rfl⟩)

/-- C9 as amended: `newFromHash` cuts the text at its first five delimiter
bytes only. For a text with five segments free of the delimiter followed by
any remainder, the six segments are those five and the remainder, further
delimiters included; the remainder is the digest field of the record and has
no other effect on the result of decoding. -/
theorem newFromHash_remainder_is_digest (s0 s1 s2 s3 s4 rest : List Byte)
    (h0 : dollar ∉ s0) (h1 : dollar ∉ s1) (h2 : dollar ∉ s2) (h3 : dollar ∉ s3)
    (h4 : dollar ∉ s4) :
    SplitN (s0 ++ dollar :: (s1 ++ dollar :: (s2 ++ dollar :: (s3 ++ dollar ::
        (s4 ++ dollar :: rest))))) dollar 6 = [s0, s1, s2, s3, s4, rest] ∧
      newFromHash (s0 ++ dollar :: (s1 ++ dollar :: (s2 ++ dollar :: (s3 ++ dollar ::
        (s4 ++ dollar :: rest))))) =
      (newFromHash (s0 ++ dollar :: (s1 ++ dollar :: (s2 ++ dollar :: (s3 ++ dollar ::
        (s4 ++ dollar :: [])))))).map (fun r => { r with hash := rest }) := by
  have split : ∀ t : List Byte,
      SplitN (s0 ++ dollar :: (s1 ++ dollar :: (s2 ++ dollar :: (s3 ++ dollar ::
        (s4 ++ dollar :: t))))) dollar 6 = [s0, s1, s2, s3, s4, t] := by
    intro t
    simp only [SplitN, Nat.reduceSub, if_neg (show (6 : Nat) ≠ 0 by decide)]
    rw [genSplit_cut _ _ _ _ h0, genSplit_cut _ _ _ _ h1, genSplit_cut _ _ _ _ h2,
      genSplit_cut _ _ _ _ h3, genSplit_cut _ _ _ _ h4]
    rfl
  refine ⟨split rest, ?_⟩
  unfold newFromHash
  simp only [split, List.getElem?_cons_succ, List.getElem?_cons_zero]
  cases (SplitN s2 equals 2)[1]? with
  | none => rfl
  | some vs =>
    simp only
    cases parsePairs (SplitN s3 comma 3) (0, 0, 0) with
    | panicked => rfl
    | err e => rfl
    | ret acc => rfl

theorem newFromHash_remainder_is_digest_witness :
    newFromHash sampleText =
      (newFromHash (ascii "$argon2id$v=19$m=65536,t=3,p=2$c2FsdA$")).map
        (fun r => { r with hash := ascii "di$gest" }) :=
  (newFromHash_remainder_is_digest [] (ascii "argon2id") (ascii "v=19")
    (ascii "m=65536,t=3,p=2") (ascii "c2FsdA") (ascii "di$gest") (by decide) (by decide)
    (by decide) (by decide) (by decide)).2

/-- C10, the code at a failing input: the test vector of `argon2_test.go`
behind a leading byte other than the delimiter is decoded to the same record
and verified with the same result as the test vector itself, for every
password; and a text that verifies under the toy collaborators still
verifies behind the leading byte. -/
theorem Compare_accepts_foreign_lead :
    (ascii "x" ++ testVector).head? = some 120 ∧
      newFromHash (ascii "x" ++ testVector) = newFromHash testVector ∧
      (∀ (x : Ext) (reg : Registry) (pw : List Byte),
        CompareHashAndPassword x reg (ascii "x" ++ testVector) pw =
          CompareHashAndPassword x reg testVector pw) ∧
      CompareHashAndPassword toyExt toyReg (ascii "x" ++ toyText) (ascii "pw") =
        ⟨.ret (), 2⟩ := by
  have hx : dollar ∉ ascii "x" := by decide
  have hv : testVector = dollar :: testVector.tail := by decide
  have ht : toyText = dollar :: toyText.tail := by decide
  refine ⟨by decide, ?_, ?_, ?_⟩
  · rw [hv]
    exact newFromHash_lead _ _ hx
  · intro x reg pw
    rw [hv]
    exact Compare_lead x reg _ _ pw hx
  · have h := Compare_lead toyExt toyReg (ascii "x") toyText.tail (ascii "pw") hx
    rw [← ht] at h
    rw [h]
    exact toy_compare

/-- C11, the claim as stated fails: a text whose version token has the key `x`
instead of `v` decodes to the record of the same text with the key `v`, and
it verifies. -/
theorem version_key_unchecked :
    newFromHash wrongKeyText = .ret toyRecord ∧
      CompareHashAndPassword toyExt toyReg wrongKeyText (ascii "pw") = ⟨.ret (), 2⟩ :=
  ⟨by decide, toy_compare_of wrongKeyText (by decide)⟩

/-- C11 as amended: the key of the version token is not checked. For a text of
six segments whose version token is `key=value`, whatever the key and
whatever the value, decoding gives the same result as with the key `v`; and
when the value is a base-10 integer in 0..255 a decoded record has that
integer as its version. -/
theorem newFromHash_version_key (s0 s1 vk vv s3 s4 rest : List Byte)
    (hseg : segmentsOk s0 s1 (vk ++ equals :: vv) s3 s4) (hk : equals ∉ vk) :
    newFromHash (segments s0 s1 (vk ++ equals :: vv) s3 s4 rest) =
        newFromHash (segments s0 s1 (ascii "v=" ++ vv) s3 s4 rest) ∧
      (isUintText 8 vv →
        ∀ r, newFromHash (segments s0 s1 (vk ++ equals :: vv) s3 s4 rest) = .ret r →
          r.version = decVal vv) := by
  obtain ⟨h0, h1, h2, h3, h4⟩ := hseg
  have h2v : dollar ∉ ([118] : List Byte) ++ equals :: vv := by
    simp only [List.mem_append, List.mem_cons, not_or] at h2 ⊢
    exact ⟨by decide, by decide, h2.2.2⟩
  have hmain := newFromHash_segments s0 s1 vk vv s3 s4 rest h0 h1 h2 h3 h4 hk
  have hv := newFromHash_segments s0 s1 [118] vv s3 s4 rest h0 h1 h2v h3 h4 (by decide)
  have e : ascii "v=" ++ vv = [118] ++ equals :: vv := by simp [ascii_vTok]
  refine ⟨by rw [e, hmain, hv], ?_⟩
  intro hvv r hr
  rw [hmain, ParseUint_value vv 8 (by decide) hvv] at hr
  cases hp : parsePairs (SplitN s3 comma 3) (0, 0, 0) with
  | panicked => rw [hp] at hr; cases hr
  | err e => rw [hp] at hr; cases hr
  | ret acc =>
    rw [hp] at hr
    cases hr
    exact Nat.mod_eq_of_lt hvv.2.2

set_option maxRecDepth 4000 in
theorem newFromHash_version_key_witness :
    (newFromHash wrongKeyText = newFromHash toyText ∧
        ∀ r, newFromHash wrongKeyText = .ret r → r.version = 19) ∧
      newFromHash (ascii "$argon2id$x=abc$m=8,t=1,p=1$HHH$AAAH") =
        newFromHash (ascii "$argon2id$v=abc$m=8,t=1,p=1$HHH$AAAH") :=
  ⟨⟨(newFromHash_version_key [] (ascii "argon2id") (ascii "x") (ascii "19")
      (ascii "m=8,t=1,p=1") (ascii "HHH") (ascii "AAAH") (by decide) (by decide)).1,
    (newFromHash_version_key [] (ascii "argon2id") (ascii "x") (ascii "19")
      (ascii "m=8,t=1,p=1") (ascii "HHH") (ascii "AAAH") (by decide) (by decide)).2
      (by decide)⟩,
    (newFromHash_version_key [] (ascii "argon2id") (ascii "x") (ascii "abc")
      (ascii "m=8,t=1,p=1") (ascii "HHH") (ascii "AAAH") (by decide) (by decide)).1⟩

/-- C12, the claim as stated fails: a text whose params token is the single
pair `m=65536` decodes to a record, with time cost and parallelism 0. -/
theorem single_pair_text_decodes : newFromHash onePairText = .ret onePairRecord := by
  decide

/-- C12 as amended: for a text of six segments whose version token is
`key=value` with a base-10 integer in 0..255 and whose params token is made
of one or more pairs `key=value`, decoding succeeds when there are at most
three pairs and every value is a base-10 integer that fits 32 bits (memory
cost, time cost and parallelism are the values of the last pair with the key
`m`, `t` and `p`, the parallelism modulo 256, and 0 without such a pair), and
it returns a `strconv` error when there are more than three pairs. -/
theorem newFromHash_pair_count (s0 s1 vk vv s4 rest : List Byte)
    (pairs : List (List Byte × List Byte))
    (hseg : segmentsOk s0 s1 (vk ++ equals :: vv) (paramsText pairs) s4) (hk : equals ∉ vk)
    (hvv : isUintText 8 vv) (hne : pairs ≠ []) (hok : ∀ p ∈ pairs, pairOk p) :
    (pairs.length ≤ 3 → (∀ p ∈ pairs, isUintText 32 p.2) →
        newFromHash (segments s0 s1 (vk ++ equals :: vv) (paramsText pairs) s4 rest) =
          .ret { variant := s1, version := decVal vv, salt := s4, hash := rest,
                 memoryCost := lastValue (ascii "m") 0 pairs,
                 timeCost := lastValue (ascii "t") 0 pairs,
                 parallelism := lastValue (ascii "p") 0 pairs % 2 ^ 8 }) ∧
      (3 < pairs.length →
        ∃ num cause,
          newFromHash (segments s0 s1 (vk ++ equals :: vv) (paramsText pairs) s4 rest) =
            .err (.NumError num cause)) := by
  constructor
  · intro hlen hval
    exact newFromHash_pairs_ok s0 s1 vk vv s4 rest pairs hseg hk hvv hne hlen hok hval
  · intro hlen
    obtain ⟨p, hp, hc⟩ := piecesOf_long pairs hlen
    exact newFromHash_pairs_err s0 s1 vk vv s4 rest pairs hseg hk hne hok
      ⟨p, hp, ParseUint_comma p.2 hc⟩

set_option maxRecDepth 4000 in
theorem newFromHash_pair_count_witness :
    newFromHash (ascii "$argon2id$v=19$m=65536,t=3$c2FsdA$digest") =
        .ret { variant := ascii "argon2id", version := 19, salt := ascii "c2FsdA",
               hash := ascii "digest", memoryCost := 65536, timeCost := 3,
               parallelism := 0 } ∧
      ∃ num cause, newFromHash (ascii "$argon2id$v=19$m=8,t=3,p=1,x=2$c2FsdA$digest") =
        .err (.NumError num cause) :=
  ⟨(newFromHash_pair_count [] (ascii "argon2id") (ascii "v") (ascii "19") (ascii "c2FsdA")
      (ascii "digest") [(ascii "m", ascii "65536"), (ascii "t", ascii "3")] (by decide)
      (by decide) (by decide) (by decide) (by decide)).1 (by decide) (by decide),
    (newFromHash_pair_count [] (ascii "argon2id") (ascii "v") (ascii "19") (ascii "c2FsdA")
      (ascii "digest")
      [(ascii "m", ascii "8"), (ascii "t", ascii "3"), (ascii "p", ascii "1"),
        (ascii "x", ascii "2")] (by decide) (by decide) (by decide) (by decide)
      (by decide)).2 (by decide)⟩

/-- C13 (params values): for a text of six segments whose version token is
`key=value` and whose params token is made of pairs `key=value`, if the
value of some pair is not a base-10 unsigned integer that fits 32 bits then
`newFromHash` returns a `strconv` error and no record, and
`CompareHashAndPassword` returns that error with no call of the primitive,
whatever the variant segment and the collaborators are. -/
theorem newFromHash_bad_value (s0 s1 vk vv s4 rest : List Byte)
    (pairs : List (List Byte × List Byte))
    (hseg : segmentsOk s0 s1 (vk ++ equals :: vv) (paramsText pairs) s4) (hk : equals ∉ vk)
    (hok : ∀ p ∈ pairs, pairOk p) (hbad : ∃ p ∈ pairs, ¬isUintText 32 p.2) :
    ∃ num cause,
      newFromHash (segments s0 s1 (vk ++ equals :: vv) (paramsText pairs) s4 rest) =
          .err (.NumError num cause) ∧
        ∀ (x : Ext) (reg : Registry) (pw : List Byte),
          CompareHashAndPassword x reg
              (segments s0 s1 (vk ++ equals :: vv) (paramsText pairs) s4 rest) pw =
            ⟨.err (.NumError num cause), 0⟩ := by
  have hne : pairs ≠ [] := by
    rintro rfl
    obtain ⟨p, hp, _⟩ := hbad
    simp at hp
  have hpieces : ∃ p ∈ piecesOf pairs, (ParseUint p.2 32).2 ≠ none := by
    by_cases hlen : pairs.length ≤ 3
    · obtain ⟨p, hp, hv⟩ := hbad
      rw [piecesOf_short pairs hlen]
      exact ⟨p, hp, fun h => hv ((ParseUint_ok_iff p.2 32 (by decide)).mp h)⟩
    · obtain ⟨p, hp, hc⟩ := piecesOf_long pairs (by omega)
      exact ⟨p, hp, ParseUint_comma p.2 hc⟩
  obtain ⟨num, cause, he⟩ :=
    newFromHash_pairs_err s0 s1 vk vv s4 rest pairs hseg hk hne hok hpieces
  exact ⟨num, cause, he, fun x reg pw => Compare_decode_err x reg _ pw _ he⟩

set_option maxRecDepth 4000 in
theorem newFromHash_bad_value_witness :
    ∃ num cause,
      newFromHash (ascii "$argon2$v=19$m=8,t=x1,p=1$HHH$AAAH") = .err (.NumError num cause) ∧
        ∀ (x : Ext) (reg : Registry) (pw : List Byte),
          CompareHashAndPassword x reg (ascii "$argon2$v=19$m=8,t=x1,p=1$HHH$AAAH") pw =
            ⟨.err (.NumError num cause), 0⟩ :=
  newFromHash_bad_value [] (ascii "argon2") (ascii "v") (ascii "19") (ascii "HHH")
    (ascii "AAAH") [(ascii "m", ascii "8"), (ascii "t", ascii "x1"), (ascii "p", ascii "1")]
    (by decide) (by decide) (by decide) ⟨(ascii "t", ascii "x1"), by decide, by decide⟩

/-- C14 (unknown keys): in a text of six segments whose version token is
`key=value` with a base-10 integer in 0..255 and whose params token is made
of at most three pairs with values that fit 32 bits, a pair whose key is none
of `m`, `t`, `p` is ignored: decoding succeeds, and memory cost, time cost
and parallelism are those that the other pairs set (the last pair with the
key; the parallelism modulo 256), 0 when no pair has the key. -/
theorem newFromHash_unknown_key (s0 s1 vk vv s4 rest k v : List Byte)
    (pre post : List (List Byte × List Byte))
    (hseg : segmentsOk s0 s1 (vk ++ equals :: vv) (paramsText (pre ++ (k, v) :: post)) s4)
    (hk : equals ∉ vk) (hvv : isUintText 8 vv) (hlen : (pre ++ (k, v) :: post).length ≤ 3)
    (hok : ∀ p ∈ pre ++ (k, v) :: post, pairOk p)
    (hval : ∀ p ∈ pre ++ (k, v) :: post, isUintText 32 p.2)
    (hunk : k ≠ ascii "m" ∧ k ≠ ascii "t" ∧ k ≠ ascii "p") :
    newFromHash
        (segments s0 s1 (vk ++ equals :: vv) (paramsText (pre ++ (k, v) :: post)) s4 rest) =
      .ret { variant := s1, version := decVal vv, salt := s4, hash := rest,
             memoryCost := lastValue (ascii "m") 0 (pre ++ post),
             timeCost := lastValue (ascii "t") 0 (pre ++ post),
             parallelism := lastValue (ascii "p") 0 (pre ++ post) % 2 ^ 8 } := by
  rw [newFromHash_pairs_ok s0 s1 vk vv s4 rest _ hseg hk hvv (by simp) hlen hok hval,
    lastValue_skip _ k v hunk.1, lastValue_skip _ k v hunk.2.1, lastValue_skip _ k v hunk.2.2]

set_option maxRecDepth 4000 in
theorem newFromHash_unknown_key_witness :
    newFromHash (ascii "$argon2id$v=19$m=8,x=5,p=1$HHH$AAAH") =
      .ret { variant := ascii "argon2id", version := 19, salt := ascii "HHH",
             hash := ascii "AAAH", memoryCost := 8, timeCost := 0, parallelism := 1 } :=
  newFromHash_unknown_key [] (ascii "argon2id") (ascii "v") (ascii "19") (ascii "HHH")
    (ascii "AAAH") (ascii "x") (ascii "5") [(ascii "m", ascii "8")] [(ascii "p", ascii "1")]
    (by decide) (by decide) (by decide) (by decide) (by decide) (by decide) (by decide)

/-- C15, the claim as stated fails: the text that verifies under `toyReg`
fails with `ErrMismatchedHashAndPassword` under the same registry with three
rounds instead of two, and under the same registry with five digest bytes
instead of four. -/
theorem Compare_depends_on_registry :
    CompareHashAndPassword toyExt toyReg toyText (ascii "pw") = ⟨.ret (), 2⟩ ∧
      CompareHashAndPassword toyExt toyReg3 toyText (ascii "pw") =
        ⟨.err .ErrMismatchedHashAndPassword, 3⟩ ∧
      CompareHashAndPassword toyExt toyRegLong toyText (ascii "pw") =
        ⟨.err .ErrMismatchedHashAndPassword, 2⟩ := by
  refine ⟨toy_compare, ?_, ?_⟩
  · exact toy_mismatch toyReg3 (ascii "HAAA") 3
      (by rw [stretched_eq _ _ _ _ _ _ _ _ _ (by decide)]; decide) (by decide)
  · exact toy_mismatch toyRegLong (ascii "AAAAH") 2
      (by rw [stretched_eq _ _ _ _ _ _ _ _ _ (by decide)]; decide) (by decide)

/-- C15 as amended: `CompareHashAndPassword` reads two values of the registry,
`Iterations` and `MaxTagLen`. Under two registry states that agree on these
two it returns the same result for every text and password, whatever the
time cost, memory cost, parallelism and salt length of the two states are. -/
theorem Compare_registry (x : Ext) (reg1 reg2 : Registry) (h pw : List Byte)
    (hi : reg1.Iterations = reg2.Iterations) (ht : reg1.MaxTagLen = reg2.MaxTagLen) :
    CompareHashAndPassword x reg1 h pw = CompareHashAndPassword x reg2 h pw := by
  unfold CompareHashAndPassword
  cases newFromHash h with
  | panicked => rfl
  | err e => rfl
  | ret p =>
    simp only
    cases hb : getVariant x p.variant with
    | error e => rfl
    | ok bound =>
      simp only [bound_registry x p.variant bound hb reg1 reg2 hi, ht]

theorem Compare_registry_witness :
    toyReg ≠ toyRegCosts ∧
      CompareHashAndPassword toyExt toyReg toyText (ascii "pw") =
        CompareHashAndPassword toyExt toyRegCosts toyText (ascii "pw") :=
  ⟨by decide, Compare_registry toyExt toyReg toyRegCosts toyText (ascii "pw") rfl rfl⟩

/-- C16, the claim as stated fails. Under the default registry with the
digest length set to 0, `GenerateFromPassword` panics in its first call of
the primitive, for both variants, every password and all collaborators: there
is no text for `CompareHashAndPassword` to reject. And under every registry
the primitive accepts, for all primitives whose digests have the requested
length, two different passwords exist of which the second is accepted, with
`nil`, against the text generated for the first. -/
theorem other_password_not_rejected :
    zeroTagReg.valid ∧
      (∀ (x : Ext) (variant p1 s : List Byte),
        variant = ascii "argon2i" ∨ variant = ascii "argon2id" →
        x.randRead zeroTagReg.MaxSaltSize = .ok s →
        GenerateFromPassword x zeroTagReg variant p1 = ⟨.panicked, 1⟩) ∧
      (∀ (x : Ext) (reg : Registry) (variant s : List Byte),
        variant = ascii "argon2i" ∨ variant = ascii "argon2id" →
        x.randRead reg.MaxSaltSize = .ok s → (∀ bs, dollar ∉ x.base64Encode bs) →
        reg.valid → primReturns reg.TimeCost reg.Threads reg.MaxTagLen →
        (∀ a b c d e f, (x.IDKey a b c d e f).length = f) →
        (∀ a b c d e f, (x.Key a b c d e f).length = f) →
        ∃ p1 p2 text, p1 ≠ p2 ∧ (GenerateFromPassword x reg variant p1).val = .ret text ∧
          (CompareHashAndPassword x reg text p2).val = .ret ()) :=
  ⟨by decide,
    fun x variant p1 s hvar hr => Generate_panics x zeroTagReg variant p1 s hvar hr (by decide),
    fun x reg variant s hvar hr henc hreg hp hid hkey =>
      exists_accepted_other_password x reg variant s hvar hr henc hreg hp hid hkey⟩

/-- C16 as amended: for "argon2i" and "argon2id" and passwords `p1`, `p2`,
when the random read succeeds, the text codec never outputs the delimiter
and one registry serves both calls, a registry of values its types can hold
whose time cost, thread count and digest length are at least 1, the
stretched operation returns a digest for `p1` and one for `p2` (on the
generated salt, with the registry costs), and `CompareHashAndPassword` on the
text generated for `p1` and on `p2` returns `ErrMismatchedHashAndPassword`
exactly when the two digests differ, and `nil` exactly when they are equal. -/
theorem Compare_Generate_other (x : Ext) (reg : Registry) (variant p1 p2 s : List Byte)
    (hvar : variant = ascii "argon2i" ∨ variant = ascii "argon2id")
    (hr : x.randRead reg.MaxSaltSize = .ok s) (henc : ∀ bs, dollar ∉ x.base64Encode bs)
    (hreg : reg.valid) (hp : primReturns reg.TimeCost reg.Threads reg.MaxTagLen) :
    ∃ text bound d1 d2, (GenerateFromPassword x reg variant p1).val = .ret text ∧
      getVariant x variant = .ok bound ∧
      (bound reg p1 (x.base64Encode (copy (List.replicate reg.MaxSaltSize 0) s).1)
        reg.TimeCost reg.MemoryCost reg.Threads reg.MaxTagLen).val = some d1 ∧
      (bound reg p2 (x.base64Encode (copy (List.replicate reg.MaxSaltSize 0) s).1)
        reg.TimeCost reg.MemoryCost reg.Threads reg.MaxTagLen).val = some d2 ∧
      ((CompareHashAndPassword x reg text p2).val = .err .ErrMismatchedHashAndPassword ↔
        d1 ≠ d2) ∧
      ((CompareHashAndPassword x reg text p2).val = .ret () ↔ d1 = d2) := by
  obtain ⟨bound, hb⟩ := getVariant_supported x variant hvar
  obtain ⟨d1, h1⟩ := bound_returns x variant bound hb reg p1
    (x.base64Encode (copy (List.replicate reg.MaxSaltSize 0) s).1) reg.TimeCost reg.MemoryCost
    reg.Threads reg.MaxTagLen hp
  obtain ⟨d2, h2⟩ := bound_returns x variant bound hb reg p2
    (x.base64Encode (copy (List.replicate reg.MaxSaltSize 0) s).1) reg.TimeCost reg.MemoryCost
    reg.Threads reg.MaxTagLen hp
  obtain ⟨hgen, hcmp⟩ := Compare_Generate_decoded x reg variant p1 p2 s d1 d2 bound hb
    (dollar_not_mem_supported variant hvar) hr (henc _) hreg h1 h2
  refine ⟨_, bound, d1, d2, hgen, hb, h1, h2, ?_, ?_⟩
  · rw [hcmp]
    split <;> simp_all
  · rw [hcmp]
    split <;> simp_all

theorem Compare_Generate_other_witness :
    ∃ text bound d1 d2,
      (GenerateFromPassword toyExt toyReg (ascii "argon2id") (ascii "pw")).val = .ret text ∧
      getVariant toyExt (ascii "argon2id") = .ok bound ∧
      (bound toyReg (ascii "pw")
        (toyExt.base64Encode (copy (List.replicate toyReg.MaxSaltSize 0)
          (List.replicate 3 7)).1)
        toyReg.TimeCost toyReg.MemoryCost toyReg.Threads toyReg.MaxTagLen).val = some d1 ∧
      (bound toyReg (ascii "f")
        (toyExt.base64Encode (copy (List.replicate toyReg.MaxSaltSize 0)
          (List.replicate 3 7)).1)
        toyReg.TimeCost toyReg.MemoryCost toyReg.Threads toyReg.MaxTagLen).val = some d2 ∧
      ((CompareHashAndPassword toyExt toyReg text (ascii "f")).val =
          .err .ErrMismatchedHashAndPassword ↔ d1 ≠ d2) ∧
      ((CompareHashAndPassword toyExt toyReg text (ascii "f")).val = .ret () ↔ d1 = d2) :=
  Compare_Generate_other toyExt toyReg (ascii "argon2id") (ascii "pw") (ascii "f")
    (List.replicate 3 7) (Or.inr rfl) rfl toyExt_no_dollar (by decide) (by decide)

/-- C18, the claim as stated fails: with the round count 0 the primitive is
called once, not zero times. -/
theorem zero_rounds_one_call :
    toyReg0.Iterations = 0 ∧
      (stretched toyExt toyPrim toyReg0 (ascii "pw") (ascii "HHH") 1 8 1 4).calls = 1 := by
  refine ⟨rfl, ?_⟩
  rw [stretched_eq _ _ _ _ _ _ _ _ _ (by decide)]
  decide

/-- C18 as amended: for every round count `n` from 0 to 255 the stretching
loop ends with the counter never wrapping (each increment below `n` stays
below 256) and the primitive called `n` times when `n` is at least 1 and
once when `n` is 0. That is the count on every argument on which the
primitive returns; on the others the first call panics and is the only one. -/
theorem stretched_calls (x : Ext) (alg : Prim) (reg : Registry) (a b : List Byte)
    (c d e f : Nat) (h8 : reg.Iterations < 2 ^ 8) :
    (stretched x alg reg a b c d e f).calls =
        (if primReturns c e f then max reg.Iterations 1 else 1) ∧
      ∀ i, i < reg.Iterations → (i + 1) % 2 ^ 8 = i + 1 := by
  constructor
  · by_cases hp : primReturns c e f
    · rw [stretched_eq _ _ _ _ _ _ _ _ _ hp, Nat.mod_eq_of_lt h8, if_pos hp]
      simp only
      omega
    · rw [stretched_panics _ _ _ _ _ _ _ _ _ hp, if_neg hp]
  · intro i hi
    exact Nat.mod_eq_of_lt (by omega)

theorem stretched_calls_witness :
    (stretched toyExt toyPrim Registry.initial (ascii "pw") (ascii "HHH") 1 8 1 4).calls = 10 ∧
      (stretched toyExt toyPrim Registry.initial (ascii "pw") (ascii "HHH") 0 8 1 4).calls =
        1 := by
  have h1 := (stretched_calls toyExt toyPrim Registry.initial (ascii "pw") (ascii "HHH") 1 8 1 4
    (by decide)).1
  have h2 := (stretched_calls toyExt toyPrim Registry.initial (ascii "pw") (ascii "HHH") 0 8 1 4
    (by decide)).1
  rw [if_pos (by decide)] at h1
  rw [if_neg (by decide)] at h2
  exact ⟨h1, h2⟩

/-- C19 (parallelism modulo 256): for a canonical text whose `p` value `n`
is at least 256 and fits 32 bits, `newFromHash` returns the record with
parallelism `n mod 256`, the same record as for the text with `p = n mod
256`; `CompareHashAndPassword` gives the same result on both texts; and the
`Hash` of the decoded record is not the input text. -/
theorem newFromHash_parallelism_mod (r : hashed) (n : Nat) (hver : r.version < 2 ^ 8)
    (hm : r.memoryCost < 2 ^ 32) (ht : r.timeCost < 2 ^ 32) (hv : dollar ∉ r.variant)
    (hs : dollar ∉ r.salt) (hn : 2 ^ 8 ≤ n) (hn32 : n < 2 ^ 32) :
    newFromHash (canonical { r with parallelism := n }) =
        .ret { r with parallelism := n % 2 ^ 8 } ∧
      newFromHash (canonical { r with parallelism := n % 2 ^ 8 }) =
        .ret { r with parallelism := n % 2 ^ 8 } ∧
      (∀ (x : Ext) (reg : Registry) (pw : List Byte),
        CompareHashAndPassword x reg (canonical { r with parallelism := n }) pw =
          CompareHashAndPassword x reg (canonical { r with parallelism := n % 2 ^ 8 }) pw) ∧
      hashed.Hash { r with parallelism := n % 2 ^ 8 } ≠
        canonical { r with parallelism := n } := by
  have hlt : n % 2 ^ 8 < 2 ^ 8 := Nat.mod_lt _ (by decide)
  have h64 : (2 : Nat) ^ 32 ≤ 2 ^ 64 := by decide
  have h832 : (2 : Nat) ^ 8 ≤ 2 ^ 32 := by decide
  have hwide := newFromHash_canonical_wide { r with parallelism := n } hver hm ht hn32 hv hs
  have hnarrow := newFromHash_canonical_wide { r with parallelism := n % 2 ^ 8 } hver hm ht
    (by show n % 2 ^ 8 < 2 ^ 32; omega) hv hs
  simp only [Nat.mod_mod] at hnarrow
  refine ⟨hwide, hnarrow, ?_, ?_⟩
  · intro x reg pw
    unfold CompareHashAndPassword
    rw [hwide, hnarrow]
  · rw [Hash_eq_canonical]
    intro h
    have := canonical_parallelism { r with parallelism := n % 2 ^ 8 }
      { r with parallelism := n } hv hs hv hs (by show n % 2 ^ 8 < 2 ^ 64; omega)
      (by show n < 2 ^ 64; omega) h
    have h' : n % 2 ^ 8 = n := this
    omega

theorem newFromHash_parallelism_mod_witness :
    newFromHash (ascii "$argon2id$v=19$m=8,t=1,p=257$HHH$AAAH") = .ret toyRecord ∧
      newFromHash toyText = .ret toyRecord := by
  have h := newFromHash_parallelism_mod toyRecord 257 (by decide) (by decide) (by decide)
    (by decide) (by decide) (by decide) (by decide)
  have e1 : canonical { toyRecord with parallelism := 257 } =
      ascii "$argon2id$v=19$m=8,t=1,p=257$HHH$AAAH" := by decide
  have e2 : canonical { toyRecord with parallelism := 257 % 2 ^ 8 } = toyText := by decide
  have e3 : ({ toyRecord with parallelism := 257 % 2 ^ 8 } : hashed) = toyRecord := by decide
  rw [e1, e2, e3] at h
  exact ⟨h.1, h.2.1⟩

/-- C20, the claim as stated fails: a text with three delimiters, and a text
with a params piece without an equals sign, return the error of an earlier
value that does not parse instead of reaching an index out of range. -/
theorem short_text_returns_error :
    (ascii "$a$v=1$m=x").count dollar = 3 ∧
      newFromHash (ascii "$a$v=1$m=x") = .err (.NumError (ascii "x") .ErrSyntax) ∧
      newFromHash (ascii "$a$v=1$m=x,t$s$h") = .err (.NumError (ascii "x") .ErrSyntax) := by
  decide

/-- C20 as amended: on a text with at least five delimiters, an equals sign
in the version token and an equals sign in every piece cut from the params
token, `newFromHash` reaches no index out of range: it returns a record or an
error. On any other text it reaches an index out of range, provided that no
piece of the params token has a value that fails to parse. -/
theorem newFromHash_index_safety (input : List Byte) :
    (indexSafe input → newFromHash input ≠ .panicked) ∧
      (¬indexSafe input →
        (∀ h3 ∈ (SplitN input dollar 6)[3]?, valuesParse (SplitN h3 comma 3)) →
        newFromHash input = .panicked) :=
  ⟨newFromHash_safe input, newFromHash_unsafe input⟩

set_option maxRecDepth 4000 in
theorem newFromHash_index_safety_witness :
    newFromHash toyText ≠ .panicked ∧ newFromHash (ascii "$argon2id$v=19$m=8$HHH") = .panicked :=
  ⟨(newFromHash_index_safety toyText).1 (by decide),
    (newFromHash_index_safety (ascii "$argon2id$v=19$m=8$HHH")).2 (by decide) (by decide)⟩

end Argon2
